import Mathlib

/-!
# Fast-array delta replication: verification of the replication core

A shallow embedding of the fast TArray replication engine
(`FNetFastTArrayBaseState`, `FFastArraySerializer`, its serialize helper
`TFastArraySerializeHelper` and the bounded sequence codec
`SafeNetSerializeTArray_HeaderOnly`), together with theorems settling the
behavioural claims about it.

Modelling conventions:
* `int32` values are modelled as `Int`; increments that can wrap use the
  explicit two's-complement step `inc32`.  Counts and sizes that are bounded by
  in-memory container sizes (and hence can never reach `2^31` in any run) use
  ordinary `Int`/`Nat` arithmetic.
* `TMap<int32, int32>` is modelled as an association list in insertion order;
  `TMap::Add` replaces the value of an existing key, iteration visits entries
  in insertion order.
* Byte/bit streams are modelled at the granularity the replication code reads
  and writes them: a list of `Int` words for the delta header path, and raw bit
  patterns (`Nat` below `2 ^ bits`) for the bounded sequence codec.  Per-record
  payloads are serialized by an external callback (`NetSerializeCB`) and carry
  no information the claims depend on, so they are not modelled.
-/

namespace FastArray

/-- `INDEX_NONE`, the sentinel for "unassigned" ids/keys in the engine. -/
def INDEX_NONE : Int := -1

def INT32_MAX : Int := 2147483647

def INT32_MIN : Int := -2147483648

/-- `x + 1` on a wrapping `int32` (two's complement). -/
def inc32 (x : Int) : Int := if x = INT32_MAX then INT32_MIN else x + 1

/-- One element of a replicated fast array (`FFastArraySerializerItem`):
its replication bookkeeping fields.  The replicated payload proper is
serialized by an external callback and carries no information the claims
are about, so it is not part of the model. -/
structure FItem where
  replicationID : Int
  replicationKey : Int
  mostRecentArrayReplicationKey : Int
deriving DecidableEq, Repr

/-- `TMap<int32, int32>` as an association list in insertion order. -/
abbrev IntMap := List (Int × Int)

/-- `TMap::Find` — the value stored at `k`, if present. -/
def mapFind : IntMap → Int → Option Int
  | [], _ => none
  | (k', v) :: rest, k => if k' = k then some v else mapFind rest k

/-- `TMap::Contains`. -/
def mapContains (m : IntMap) (k : Int) : Bool := (mapFind m k).isSome

/-- `TMap::Add` — replaces the value when the key is already present,
appends otherwise. -/
def mapAdd : IntMap → Int → Int → IntMap
  | [], k, v => [(k, v)]
  | (k', v') :: rest, k, v =>
    if k' = k then (k, v) :: rest else (k', v') :: mapAdd rest k v

/-- The per-observer base state (`FNetFastTArrayBaseState`): the
id → replication-key map the last delta was computed against, plus the
`ArrayReplicationKey` it was computed at. -/
structure FNetFastTArrayBaseState where
  idToCLMap : IntMap
  arrayReplicationKey : Int
deriving DecidableEq, Repr

/-- `FNetFastTArrayBaseState::IsStateEqual`: walks this state's map and
requires every entry to be present in the other state's map with the same
value; entries only in the other map are never examined. -/
def isStateEqual (a b : FNetFastTArrayBaseState) : Bool :=
  a.idToCLMap.all fun p => decide (mapFind b.idToCLMap p.1 = some p.2)

/-- The replication bookkeeping state of `FFastArraySerializer` (the
collection-level struct that owns the items). `guidReferencesMap` keeps only
the keys of `GuidReferencesMap` (which item ids have deferred, unresolved
payload references); the captured buffers themselves play no role in the
claims. -/
structure FFastArraySerializer where
  itemMap : IntMap
  idCounter : Int
  arrayReplicationKey : Int
  cachedNumItems : Int
  cachedNumItemsToConsiderForWriting : Int
  guidReferencesMap : List Int
deriving DecidableEq, Repr

/-- `FFastArraySerializer::IncrementArrayReplicationKey`: bump the array key,
skipping over `INDEX_NONE`. -/
def incrementArrayReplicationKey (s : FFastArraySerializer) : FFastArraySerializer :=
  let k := inc32 s.arrayReplicationKey
  { s with arrayReplicationKey := if k = INDEX_NONE then inc32 k else k }

/-- `FFastArraySerializer::MarkArrayDirty`. -/
def markArrayDirty (s : FFastArraySerializer) : FFastArraySerializer :=
  let s := { s with itemMap := [] }
  let s := incrementArrayReplicationKey s
  { s with cachedNumItems := INDEX_NONE, cachedNumItemsToConsiderForWriting := INDEX_NONE }

/-- `FFastArraySerializer::MarkItemDirty`: assign `++IDCounter` as the item's
id when it has none (bumping the counter once more when it lands on
`INDEX_NONE`), increment the item's key, and mark the array dirty. -/
def markItemDirty (s : FFastArraySerializer) (item : FItem) :
    FFastArraySerializer × FItem :=
  let (s, item) :=
    if item.replicationID = INDEX_NONE then
      let c := inc32 s.idCounter
      let item := { item with replicationID := c }
      let c := if c = INDEX_NONE then inc32 c else c
      ({ s with idCounter := c }, item)
    else (s, item)
  let item := { item with replicationKey := inc32 item.replicationKey }
  (markArrayDirty s, item)

/-- `FFastArraySerializer::ShouldWriteFastArrayItem`: during client (replay)
recording, predictively added items — those without an id — are invisible. -/
def shouldWriteFastArrayItem (item : FItem) (bIsWritingOnClient : Bool) : Bool :=
  !bIsWritingOnClient || item.replicationID != INDEX_NONE

section MapLemmas

theorem mapFind_mapAdd_self (m : IntMap) (k v : Int) :
    mapFind (mapAdd m k v) k = some v := by
  induction m with
  | nil => simp [mapAdd, mapFind]
  | cons p rest ih =>
    by_cases h : p.1 = k
    · simp [mapAdd, h, mapFind]
    · simp [mapAdd, h, mapFind, ih]

theorem mapFind_mapAdd_ne (m : IntMap) (k v k' : Int) (h : k ≠ k') :
    mapFind (mapAdd m k v) k' = mapFind m k' := by
  induction m with
  | nil => simp [mapAdd, mapFind, h]
  | cons p rest ih =>
    by_cases hp : p.1 = k
    · simp [mapAdd, hp, mapFind, h]
    · simp only [mapAdd, if_neg hp]
      by_cases hp' : p.1 = k'
      · simp [mapFind, hp']
      · simp [mapFind, hp', ih]

theorem mapContains_iff (m : IntMap) (k : Int) :
    mapContains m k = true ↔ ∃ v, mapFind m k = some v := by
  simp [mapContains, Option.isSome_iff_exists]

end MapLemmas

end FastArray

namespace FastArray

/-! ## C10: `IsStateEqual` is a one-sided containment check -/

/-- C10: `FNetFastTArrayBaseState::IsStateEqual` returns true exactly when
every `(id, key)` entry of this state's map occurs with the same value in the
other state's map (entries only in the other state are ignored), and the
relation is not symmetric: there are states `A`, `B` with
`IsStateEqual A B = true` but `IsStateEqual B A = false`. -/
theorem isStateEqual_is_one_sided_containment :
    (∀ a b : FNetFastTArrayBaseState,
      isStateEqual a b = true ↔
        ∀ p ∈ a.idToCLMap, mapFind b.idToCLMap p.1 = some p.2) ∧
    (∃ A B : FNetFastTArrayBaseState,
      isStateEqual A B = true ∧ isStateEqual B A = false) := by
  constructor
  · intro a b
    simp [isStateEqual, List.all_eq_true]
  · exact ⟨⟨[], 0⟩, ⟨[(1, 1)], 0⟩, by decide⟩

/-! ## C8: `MarkItemDirty` -/

/-- C8 counterexample: with the id counter at `-2` (one step before the
wrap past the sentinel), `MarkItemDirty` assigns `++IDCounter = -1 =
INDEX_NONE` as the item's "fresh" replication id: the assigned id *is*
the sentinel.  Only the counter itself is stepped past the sentinel. -/
theorem markItemDirty_can_assign_sentinel :
    (markItemDirty ⟨[], -2, 0, INDEX_NONE, INDEX_NONE, []⟩
        ⟨INDEX_NONE, 0, 0⟩).2.replicationID = INDEX_NONE := by decide

/-- C8 (amended): `MarkItemDirty` steps the item's replication key by one
(`inc32`), increments the owning collection's array key (skipping the
sentinel), and, when the item's id is unassigned, assigns the
pre-incremented counter value `inc32 IDCounter` and leaves the counter
itself never equal to the sentinel — so the *assigned* id is non-sentinel
whenever the increment does not land exactly on the sentinel, which is
skipped only in the counter for subsequent assignments. -/
theorem markItemDirty_spec (s : FFastArraySerializer) (item : FItem) :
    (markItemDirty s item).2.replicationKey = inc32 item.replicationKey ∧
    (markItemDirty s item).1.arrayReplicationKey =
      (incrementArrayReplicationKey s).arrayReplicationKey ∧
    (item.replicationID ≠ INDEX_NONE →
      (markItemDirty s item).2.replicationID = item.replicationID ∧
      (markItemDirty s item).1.idCounter = s.idCounter) ∧
    (item.replicationID = INDEX_NONE →
      (markItemDirty s item).2.replicationID = inc32 s.idCounter ∧
      (markItemDirty s item).1.idCounter ≠ INDEX_NONE ∧
      (inc32 s.idCounter ≠ INDEX_NONE →
        (markItemDirty s item).2.replicationID ≠ INDEX_NONE)) := by
  by_cases h : item.replicationID = INDEX_NONE
  · refine ⟨by simp [markItemDirty, markArrayDirty, incrementArrayReplicationKey, h], ?_, ?_, ?_⟩
    · simp [markItemDirty, markArrayDirty, incrementArrayReplicationKey, h]
    · intro h'; exact absurd h h'
    · intro _
      refine ⟨by simp [markItemDirty, markArrayDirty, h], ?_, ?_⟩
      · by_cases hc : inc32 s.idCounter = INDEX_NONE
        · simp only [markItemDirty, markArrayDirty, incrementArrayReplicationKey, h, if_pos rfl,
            hc, if_pos rfl]
          simp [inc32, INDEX_NONE, INT32_MAX, INT32_MIN]
        · simp [markItemDirty, markArrayDirty, incrementArrayReplicationKey, h, hc]
      · intro hne
        simpa [markItemDirty, markArrayDirty, h] using hne
  · refine ⟨by simp [markItemDirty, markArrayDirty, incrementArrayReplicationKey, h], ?_, ?_, ?_⟩
    · simp [markItemDirty, markArrayDirty, incrementArrayReplicationKey, h]
    · intro _
      constructor
      · simp [markItemDirty, markArrayDirty, h]
      · simp [markItemDirty, markArrayDirty, incrementArrayReplicationKey, h]
    · intro h'; exact absurd h' h

/-- C8 witness: the amended spec evaluated at a concrete serializer and item
(counter `0`, an unassigned item): the assigned id is `1`, the counter stays
off the sentinel, and the array key steps from `5` to `6`. -/
theorem markItemDirty_spec_witness :
    ((⟨INDEX_NONE, 7, 0⟩ : FItem).replicationID = INDEX_NONE →
      (markItemDirty ⟨[], 0, 5, INDEX_NONE, INDEX_NONE, []⟩
          ⟨INDEX_NONE, 7, 0⟩).2.replicationID = inc32 0 ∧
      (markItemDirty ⟨[], 0, 5, INDEX_NONE, INDEX_NONE, []⟩
          ⟨INDEX_NONE, 7, 0⟩).1.idCounter ≠ INDEX_NONE ∧
      (inc32 0 ≠ INDEX_NONE →
        (markItemDirty ⟨[], 0, 5, INDEX_NONE, INDEX_NONE, []⟩
            ⟨INDEX_NONE, 7, 0⟩).2.replicationID ≠ INDEX_NONE)) :=
  (markItemDirty_spec ⟨[], 0, 5, INDEX_NONE, INDEX_NONE, []⟩ ⟨INDEX_NONE, 7, 0⟩).2.2.2

/-! ## C7: the bounded sequence codec (`SafeNetSerializeTArray_HeaderOnly`) -/

/-- `FMath::CeilLogTwo`: the least `n` with `v ≤ 2 ^ n` (and `0` at `v = 0`). -/
def ceilLogTwo (v : Nat) : Nat := Nat.clog 2 v

/-- Interpret a raw bit pattern (already reduced below `2 ^ 32`) as a signed
`int32`, as `FArchive::SerializeBits` leaves it in the `int32` destination. -/
def toInt32 (p : Nat) : Int :=
  if p % 2 ^ 32 < 2 ^ 31 then ((p % 2 ^ 32 : Nat) : Int)
  else ((p % 2 ^ 32 : Nat) : Int) - 2 ^ 32

/-- Saving-side result of `SafeNetSerializeTArray_HeaderOnly`. -/
structure BoundedHeaderSave where
  bitsUsed : Nat
  pattern : Nat
  success : Bool
  arrayNum : Int
deriving DecidableEq, Repr

/-- Loading-side result of `SafeNetSerializeTArray_HeaderOnly`.  `allocated`
is the number of elements `Array.Reset(); Array.AddDefaulted(ArrayNum)`
ends up holding (a non-positive count adds nothing). -/
structure BoundedHeaderLoad where
  success : Bool
  arrayNum : Int
  allocated : Nat
deriving DecidableEq, Repr

/-- `SafeNetSerializeTArray_HeaderOnly`, `Ar.IsSaving()` branch: clamp the
length to `MaxNum` (flagging failure on overflow — a sender-side bug signal)
and write it in `CeilLogTwo(MaxNum) + 1` bits. -/
def safeNetSerializeTArray_HeaderOnly_save (maxNum : Int) (arrayLen : Nat) :
    BoundedHeaderSave :=
  let numBits := ceilLogTwo maxNum.toNat + 1
  let arrayNum : Int := arrayLen
  let (success, arrayNum) :=
    if arrayNum > maxNum then (false, maxNum) else (true, arrayNum)
  { bitsUsed := numBits
    pattern := arrayNum.toNat % 2 ^ numBits
    success := success
    arrayNum := arrayNum }

/-- `SafeNetSerializeTArray_HeaderOnly`, `Ar.IsLoading()` branch: read
`CeilLogTwo(MaxNum) + 1` bits into an `int32`, clamp to `MaxNum` (flagging
failure: a tolerated hostile/corrupt input), then reset and allocate that
many elements. -/
def safeNetSerializeTArray_HeaderOnly_load (maxNum : Int) (wire : Nat) :
    BoundedHeaderLoad :=
  let numBits := ceilLogTwo maxNum.toNat + 1
  let v : Int := toInt32 (wire % 2 ^ numBits)
  let (success, v) := if v > maxNum then (false, maxNum) else (true, v)
  { success := success, arrayNum := v, allocated := v.toNat }

theorem toNat_lt_two_pow_numBits (maxNum : Int) :
    maxNum.toNat < 2 ^ (ceilLogTwo maxNum.toNat + 1) := by
  have hle : maxNum.toNat ≤ 2 ^ Nat.clog 2 maxNum.toNat :=
    Nat.le_pow_clog (by norm_num) _
  calc maxNum.toNat ≤ 2 ^ Nat.clog 2 maxNum.toNat := hle
    _ < 2 ^ (Nat.clog 2 maxNum.toNat + 1) :=
        Nat.pow_lt_pow_succ (by norm_num)

/-- C7: the bounded sequence codec writes its count field in exactly
`ceil(log2 MaxNum) + 1` bits; saving a length above `MaxNum` flags failure
and clamps the written count to `MaxNum`; loading flags failure and clamps
any decoded count above `MaxNum` before allocating, so no bit pattern can
make the decoder allocate more than `MaxNum` elements; and when the original
length is at most `MaxNum` the round trip restores the length exactly. -/
theorem safeNetSerializeTArray_HeaderOnly_spec (maxNum : Int) (arrayLen : Nat)
    (h1 : 1 ≤ maxNum) (h2 : maxNum ≤ INT32_MAX) :
    ((safeNetSerializeTArray_HeaderOnly_save maxNum arrayLen).bitsUsed =
        ceilLogTwo maxNum.toNat + 1) ∧
    ((arrayLen : Int) > maxNum →
      (safeNetSerializeTArray_HeaderOnly_save maxNum arrayLen).success = false ∧
      (safeNetSerializeTArray_HeaderOnly_save maxNum arrayLen).arrayNum = maxNum) ∧
    (∀ wire : Nat,
      (toInt32 (wire % 2 ^ (ceilLogTwo maxNum.toNat + 1)) > maxNum →
        (safeNetSerializeTArray_HeaderOnly_load maxNum wire).success = false ∧
        (safeNetSerializeTArray_HeaderOnly_load maxNum wire).arrayNum = maxNum) ∧
      ((safeNetSerializeTArray_HeaderOnly_load maxNum wire).allocated ≤ maxNum.toNat)) ∧
    ((arrayLen : Int) ≤ maxNum →
      (safeNetSerializeTArray_HeaderOnly_load maxNum
          (safeNetSerializeTArray_HeaderOnly_save maxNum arrayLen).pattern).allocated =
        arrayLen ∧
      (safeNetSerializeTArray_HeaderOnly_load maxNum
          (safeNetSerializeTArray_HeaderOnly_save maxNum arrayLen).pattern).success = true ∧
      (safeNetSerializeTArray_HeaderOnly_save maxNum arrayLen).success = true) := by
  have hpow := toNat_lt_two_pow_numBits maxNum
  refine ⟨rfl, ?_, ?_, ?_⟩
  · intro hgt
    simp [safeNetSerializeTArray_HeaderOnly_save, hgt]
  · intro wire
    constructor
    · intro hgt
      simp only [safeNetSerializeTArray_HeaderOnly_load]
      rw [if_pos hgt]
      exact ⟨rfl, rfl⟩
    · by_cases hgt : toInt32 (wire % 2 ^ (ceilLogTwo maxNum.toNat + 1)) > maxNum
      · simp only [safeNetSerializeTArray_HeaderOnly_load]
        rw [if_pos hgt]
      · simp only [safeNetSerializeTArray_HeaderOnly_load]
        rw [if_neg hgt]
        push_neg at hgt
        exact Int.toNat_le_toNat hgt
  · intro hle
    have hnotgt : ¬ ((arrayLen : Int) > maxNum) := not_lt.mpr hle
    have hlenlt : arrayLen < 2 ^ (ceilLogTwo maxNum.toNat + 1) := by
      have : arrayLen ≤ maxNum.toNat := by
        omega
      omega
    have hpat : (safeNetSerializeTArray_HeaderOnly_save maxNum arrayLen).pattern = arrayLen := by
      simp only [safeNetSerializeTArray_HeaderOnly_save]
      rw [if_neg hnotgt]
      simp only
      rw [Int.toNat_natCast, Nat.mod_eq_of_lt hlenlt]
    rw [hpat]
    have hmod : arrayLen % 2 ^ (ceilLogTwo maxNum.toNat + 1) = arrayLen :=
      Nat.mod_eq_of_lt hlenlt
    have hlen31 : (arrayLen : Int) < 2 ^ 31 := by
      calc (arrayLen : Int) ≤ maxNum := hle
        _ ≤ INT32_MAX := h2
        _ < 2 ^ 31 := by norm_num [INT32_MAX]
    have hlen32 : arrayLen % 2 ^ 32 = arrayLen := by
      apply Nat.mod_eq_of_lt
      have : (arrayLen : Int) < 2 ^ 32 := lt_trans hlen31 (by norm_num)
      exact_mod_cast this
    have hto : toInt32 arrayLen = (arrayLen : Int) := by
      simp only [toInt32, hlen32]
      rw [if_pos]
      exact_mod_cast hlen31
    simp only [safeNetSerializeTArray_HeaderOnly_load, hmod, hto]
    rw [if_neg (not_lt.mpr hle)]
    refine ⟨by simp, rfl, ?_⟩
    simp [safeNetSerializeTArray_HeaderOnly_save, hnotgt]

/-- C7 witness: the bounded codec at `MaxNum = 5` (3 + 1 header bits) with a
3-element sequence: the round trip restores length 3, and every hypothesis of
the specification holds at these inputs. -/
theorem safeNetSerializeTArray_HeaderOnly_spec_witness :
    (1 ≤ (5 : Int) ∧ (5 : Int) ≤ INT32_MAX) ∧
    ((3 : Int) ≤ 5 →
      (safeNetSerializeTArray_HeaderOnly_load 5
          (safeNetSerializeTArray_HeaderOnly_save 5 3).pattern).allocated = 3 ∧
      (safeNetSerializeTArray_HeaderOnly_load 5
          (safeNetSerializeTArray_HeaderOnly_save 5 3).pattern).success = true ∧
      (safeNetSerializeTArray_HeaderOnly_save 5 3).success = true) :=
  ⟨⟨by norm_num, by norm_num [INT32_MAX]⟩,
    (safeNetSerializeTArray_HeaderOnly_spec 5 3 (by norm_num)
      (by norm_num [INT32_MAX])).2.2.2⟩

/-! ## The delta wire header (`FFastArraySerializerHeader`) -/

/-- `FFastArraySerializerHeader`.  On the writing side `deletedIndices`
holds replication IDs; on the reading side it holds local array indices
(the IDs are translated through the item map while reading). -/
structure FFastArraySerializerHeader where
  arrayReplicationKey : Int
  baseReplicationKey : Int
  numChanged : Int
  deletedIndices : List Int
deriving DecidableEq, Repr

/-- Result of `TFastArraySerializeHelper::WriteDeltaHeader`: the `int32`
words pushed into the bit writer, plus the two `UE_CLOG` warning
conditions (the write path only logs when a bound is exceeded). -/
structure WriteHeaderResult where
  wire : List Int
  warnNumDeletes : Bool
  warnNumChanged : Bool
deriving DecidableEq, Repr

/-- `TFastArraySerializeHelper::WriteDeltaHeader`: write the array key, the
base key, the number of deleted elements and the number of changed elements,
then every deleted element's id.  Exceeding `MaxNumberOfAllowedDeletions/
ChangesPerUpdate` only raises a log warning; nothing is clamped or dropped. -/
def writeDeltaHeader (maxDel maxChg : Int) (h : FFastArraySerializerHeader) :
    WriteHeaderResult :=
  let numDeletes : Int := h.deletedIndices.length
  { wire := h.arrayReplicationKey :: h.baseReplicationKey ::
      numDeletes :: h.numChanged :: h.deletedIndices
    warnNumDeletes := numDeletes > maxDel
    warnNumChanged := h.numChanged > maxChg }

/-- `Reader << Value` for one `int32`: an exhausted reader yields zero. -/
def readInt : List Int → Int × List Int
  | [] => (0, [])
  | x :: r => (x, r)

/-- The deleted-elements loop of `ReadDeltaHeader`: each received id is
looked up in the item map and translated to a local index; unknown ids are
silently ignored (already removed). -/
def readDeletedIDs (itemMap : IntMap) : Nat → List Int → List Int × List Int
  | 0, w => ([], w)
  | n + 1, w =>
    let (elementID, w) := readInt w
    let (rest, w') := readDeletedIDs itemMap n w
    match mapFind itemMap elementID with
    | some idx => (idx :: rest, w')
    | none => (rest, w')

/-- `TFastArraySerializeHelper::ReadDeltaHeader`: decode the header words,
rejecting (reader error, `return false`) when `NumDeletes` or `NumChanged`
exceeds the configured maximum, then translate the deleted ids to local
indices. -/
def readDeltaHeader (maxDel maxChg : Int) (itemMap : IntMap) (w : List Int) :
    Option (FFastArraySerializerHeader × List Int) :=
  let (key, w) := readInt w
  let (base, w) := readInt w
  let (numDeletes, w) := readInt w
  if numDeletes > maxDel then none
  else
    let (numChanged, w) := readInt w
    if numChanged > maxChg then none
    else
      let (deletedIdx, w) := readDeletedIDs itemMap numDeletes.toNat w
      some (⟨key, base, numChanged, deletedIdx⟩, w)

/-- C5 counterexample: with `MaxNumberOfAllowedDeletionsPerUpdate = 1`, the
write path happily emits a header with three deleted ids (no clamping, no
suppression — the bound is not enforced on what is emitted), while the read
path rejects that very wire.  The bounds are *not* enforced identically on
read and write. -/
theorem writeDeltaHeader_bound_not_enforced :
    (writeDeltaHeader 1 100 ⟨9, 5, 0, [7, 8, 11]⟩).wire = [9, 5, 3, 0, 7, 8, 11] ∧
    ((3 : Int) > 1) ∧
    readDeltaHeader 1 100 [] [9, 5, 3, 0, 7, 8, 11] = none := by decide

/-! ## Sender-side walk: `BuildChangedAndDeletedBuffers` -/

/-- `TFastArraySerializeHelper::CalcNumItemsForConsideration`. -/
def calcNumItemsForConsideration (items : List FItem) (client : Bool) : Nat :=
  (items.filter fun it => shouldWriteFastArrayItem it client).length

/-- Lookup in the optional old base-state map (`OldIDToKeyMap` may be null). -/
def oldFind : Option IntMap → Int → Option Int
  | some m, k => mapFind m k
  | none, _ => none

/-- The mutable state threaded through the item walk of
`BuildChangedAndDeletedBuffers`: the serializer (which `MarkItemDirty` can
touch), the new id → key map, the accumulated changed `(index, id)` pairs and
the running expected delete count. -/
structure WalkState where
  ser : FFastArraySerializer
  newMap : IntMap
  changed : List (Nat × Int)
  deleteCount : Int
deriving DecidableEq, Repr

/-- The classification step of the `BuildChangedAndDeletedBuffers` loop for a
considered item (after any id assignment): record the id → key pair in the new
map and classify against the old map — same key: skip; different key: changed;
absent: changed, and the expected delete count is bumped. -/
def walkStep (oldMap : Option IntMap) (i : Nat) (st : WalkState) (ser : FFastArraySerializer)
    (item : FItem) : WalkState :=
  let newMap := mapAdd st.newMap item.replicationID item.replicationKey
  match oldFind oldMap item.replicationID with
  | some v =>
    if v = item.replicationKey then
      -- Stayed the same; it might have moved but we do not care.
      { st with ser := ser, newMap := newMap }
    else
      { st with
        ser := ser
        newMap := newMap
        changed := st.changed ++ [(i, item.replicationID)] }
  | none =>
    { st with
      ser := ser
      newMap := newMap
      changed := st.changed ++ [(i, item.replicationID)]
      deleteCount := st.deleteCount + 1 }

/-- The per-item loop of `BuildChangedAndDeletedBuffers`: skip items invisible
to the wire, give ids (via `MarkItemDirty`) to considered items that lack one,
then classify each considered item with `walkStep`. -/
def buildWalk (client : Bool) (oldMap : Option IntMap) :
    List FItem → Nat → WalkState → List FItem × WalkState
  | [], _, st => ([], st)
  | item :: rest, i, st =>
    if shouldWriteFastArrayItem item client = false then
      -- On clients, this skips items that were added predictively.
      let r := buildWalk client oldMap rest (i + 1) st
      (item :: r.1, r.2)
    else
      let marked :=
        if item.replicationID = INDEX_NONE then markItemDirty st.ser item
        else (st.ser, item)
      let r := buildWalk client oldMap rest (i + 1) (walkStep oldMap i st marked.1 marked.2)
      (marked.2 :: r.1, r.2)

/-- The deleted-elements loop of `BuildChangedAndDeletedBuffers`: walk the old
map in iteration order, record ids absent from the new map, and stop as soon
as the running delete count is spent. -/
def buildDeletedLoop (newMap : IntMap) : IntMap → Int → List Int → List Int × Int
  | [], dc, acc => (acc, dc)
  | p :: rest, dc, acc =>
    if mapContains newMap p.1 = false then
      let dc' := dc - 1
      let acc' := acc ++ [p.1]
      if dc' ≤ 0 then (acc', dc') else buildDeletedLoop newMap rest dc' acc'
    else buildDeletedLoop newMap rest dc acc

/-- Result of `BuildChangedAndDeletedBuffers`. -/
structure BuildResult where
  items : List FItem
  ser : FFastArraySerializer
  newMap : IntMap
  changed : List (Nat × Int)
  deleted : List Int
  deleteCount : Int
deriving DecidableEq, Repr

/-- `TFastArraySerializeHelper::BuildChangedAndDeletedBuffers`. -/
def buildChangedAndDeletedBuffers (client : Bool) (oldMap : Option IntMap)
    (items : List FItem) (ser : FFastArraySerializer) : BuildResult :=
  let numConsidered := calcNumItemsForConsideration items client
  let dc0 : Int :=
    (match oldMap with | some m => (m.length : Int) | none => 0) - numConsidered
  let w := buildWalk client oldMap items 0 ⟨ser, [], [], dc0⟩
  let del :=
    match oldMap with
    | some m =>
      if w.2.deleteCount > 0 then buildDeletedLoop w.2.newMap m w.2.deleteCount []
      else ([], w.2.deleteCount)
    | none => ([], w.2.deleteCount)
  ⟨w.1, w.2.ser, w.2.newMap, w.2.changed, del.1, del.2⟩

section BuildWalkLemmas

theorem mapContains_of_mem {m : IntMap} {k v : Int} (h : (k, v) ∈ m) :
    mapContains m k = true := by
  induction m with
  | nil => simp at h
  | cons p rest ih =>
    rcases List.mem_cons.mp h with h | h
    · rw [← h]
      simp [mapContains, mapFind]
    · by_cases hp : p.1 = k
      · simp [mapContains, mapFind, hp]
      · simpa [mapContains, mapFind, hp] using ih h

/-- What the classification step appends to the changed list. -/
theorem walkStep_changed (oldMap : Option IntMap) (i : Nat) (st : WalkState)
    (ser : FFastArraySerializer) (item : FItem) :
    (walkStep oldMap i st ser item).changed =
      st.changed ++
        (if oldFind oldMap item.replicationID = some item.replicationKey then []
         else [(i, item.replicationID)]) := by
  unfold walkStep
  cases hov : oldFind oldMap item.replicationID with
  | some v =>
    by_cases hv : v = item.replicationKey
    · simp [hv]
    · simp [hv, Ne.symm hv]
  | none => simp

/-- What the classification step does to the expected delete count. -/
theorem walkStep_deleteCount (oldMap : Option IntMap) (i : Nat) (st : WalkState)
    (ser : FFastArraySerializer) (item : FItem) :
    (walkStep oldMap i st ser item).deleteCount =
      st.deleteCount +
        (if (oldFind oldMap item.replicationID).isNone then 1 else 0) := by
  unfold walkStep
  cases hov : oldFind oldMap item.replicationID with
  | some v =>
    by_cases hv : v = item.replicationKey <;> simp [hv]
  | none => simp

theorem buildWalk_length (client : Bool) (oldMap : Option IntMap) :
    ∀ (items : List FItem) (i : Nat) (st : WalkState),
      (buildWalk client oldMap items i st).1.length = items.length := by
  intro items
  induction items with
  | nil => intro i st; simp [buildWalk]
  | cons item rest ih =>
    intro i st
    by_cases h : shouldWriteFastArrayItem item client = false
    · simp [buildWalk, h, ih]
    · simp [buildWalk, h, ih]

theorem buildWalk_changed_append (client : Bool) (oldMap : Option IntMap) :
    ∀ (items : List FItem) (i : Nat) (st : WalkState),
      ∃ tail,
        (buildWalk client oldMap items i st).2.changed = st.changed ++ tail ∧
        (∀ p ∈ tail, i ≤ p.1 ∧ p.1 < i + items.length) ∧
        (buildWalk client oldMap items i st).2.deleteCount =
          st.deleteCount +
            ((tail.filter fun p => (oldFind oldMap p.2).isNone).length : Int) := by
  intro items
  induction items with
  | nil =>
    intro i st
    exact ⟨[], by simp [buildWalk], by simp, by simp [buildWalk]⟩
  | cons item rest ih =>
    intro i st
    by_cases h : shouldWriteFastArrayItem item client = false
    · obtain ⟨tail, h1, h2, h3⟩ := ih (i + 1) st
      refine ⟨tail, by simpa [buildWalk, h] using h1, ?_,
        by simpa [buildWalk, h] using h3⟩
      intro p hp
      have := h2 p hp
      simp only [List.length_cons]
      omega
    · simp only [buildWalk, if_neg h]
      set marked := (if item.replicationID = INDEX_NONE then markItemDirty st.ser item
        else (st.ser, item)) with hmarked
      set st₁ := walkStep oldMap i st marked.1 marked.2 with hst₁
      obtain ⟨tail, h1, h2, h3⟩ := ih (i + 1) st₁
      by_cases hv : oldFind oldMap marked.2.replicationID = some marked.2.replicationKey
      · -- the item stayed the same: nothing appended, delete count unchanged
        have hch : st₁.changed = st.changed := by
          rw [hst₁, walkStep_changed, if_pos hv, List.append_nil]
        have hdc : st₁.deleteCount = st.deleteCount := by
          rw [hst₁, walkStep_deleteCount]
          have : (oldFind oldMap marked.2.replicationID).isNone = false := by
            rw [hv]; rfl
          rw [this]
          simp
        refine ⟨tail, ?_, ?_, ?_⟩
        · rw [h1, hch]
        · intro p hp
          have := h2 p hp
          simp only [List.length_cons]
          omega
        · rw [h3, hdc]
      · -- changed or new: (i, id) is appended
        have hch : st₁.changed = st.changed ++ [(i, marked.2.replicationID)] := by
          rw [hst₁, walkStep_changed, if_neg hv]
        have hdc : st₁.deleteCount = st.deleteCount +
            (if (oldFind oldMap marked.2.replicationID).isNone then 1 else 0) := by
          rw [hst₁, walkStep_deleteCount]
        refine ⟨(i, marked.2.replicationID) :: tail, ?_, ?_, ?_⟩
        · rw [h1, hch, List.append_cons, List.append_assoc]
          simp
        · intro p hp
          rcases List.mem_cons.mp hp with hp | hp
          · rw [hp]
            simp only [List.length_cons]
            omega
          · have := h2 p hp
            simp only [List.length_cons]
            omega
        · rw [h3, hdc]
          cases hn : (oldFind oldMap marked.2.replicationID).isNone with
          | true =>
            simp only [List.filter_cons, hn, if_true, List.length_cons]
            push_cast
            ring
          | false =>
            simp only [List.filter_cons, hn]
            simp

/-- A considered item is always visible to the wire after any id assignment:
on the server every item is, and on a client the consider branch is only
reached when the item already has an id. -/
theorem marked_shouldWrite (client : Bool) (s : FFastArraySerializer) (item : FItem)
    (h : ¬ shouldWriteFastArrayItem item client = false) :
    shouldWriteFastArrayItem
      (if item.replicationID = INDEX_NONE then markItemDirty s item
       else (s, item)).2 client = true := by
  cases client with
  | false =>
    by_cases hid : item.replicationID = INDEX_NONE <;>
      simp [shouldWriteFastArrayItem, hid]
  | true =>
    have hid : item.replicationID ≠ INDEX_NONE := by
      intro hcon
      exact h (by simp [shouldWriteFastArrayItem, hcon])
    rw [if_neg hid]
    simpa [shouldWriteFastArrayItem] using hid

/-- The changed buffer, characterized per index: the walk records index `i+k`
as changed exactly when the item that ends up at that position is considered
and its (possibly freshly assigned) id is absent from the old map or present
with a different key. -/
theorem buildWalk_changed_iff (client : Bool) (oldMap : Option IntMap) :
    ∀ (items : List FItem) (i : Nat) (st : WalkState),
      (∀ p ∈ st.changed, p.1 < i) →
      ∀ (k : Nat) (it : FItem),
        (buildWalk client oldMap items i st).1.get? k = some it →
        ((∃ id, (i + k, id) ∈ (buildWalk client oldMap items i st).2.changed) ↔
          (shouldWriteFastArrayItem it client = true ∧
            oldFind oldMap it.replicationID ≠ some it.replicationKey)) := by
  intro items
  induction items with
  | nil =>
    intro i st _ k it hit
    simp [buildWalk] at hit
  | cons item rest ih =>
    intro i st hmono k it hit
    by_cases h : shouldWriteFastArrayItem item client = false
    · have hunf : buildWalk client oldMap (item :: rest) i st =
          (item :: (buildWalk client oldMap rest (i + 1) st).1,
            (buildWalk client oldMap rest (i + 1) st).2) := by
        simp [buildWalk, h]
      rw [hunf] at hit ⊢
      cases k with
      | zero =>
        simp only [List.get?_cons_zero, Option.some.injEq] at hit
        constructor
        · rintro ⟨id, hid⟩
          obtain ⟨tail, h1, h2, _⟩ := buildWalk_changed_append client oldMap rest (i + 1) st
          simp only at hid
          rw [h1] at hid
          rcases List.mem_append.mp hid with hid | hid
          · exact absurd (hmono _ hid) (by omega)
          · have := (h2 _ hid).1
            omega
        · rintro ⟨hw, _⟩
          rw [← hit, h] at hw
          exact absurd hw (by simp)
      | succ k =>
        simp only [List.get?_cons_succ] at hit
        have hrw : i + (k + 1) = (i + 1) + k := by omega
        rw [hrw]
        exact ih (i + 1) st (fun p hp => by have := hmono p hp; omega) k it hit
    · have hunf : buildWalk client oldMap (item :: rest) i st =
          ((if item.replicationID = INDEX_NONE then markItemDirty st.ser item
            else (st.ser, item)).2 ::
              (buildWalk client oldMap rest (i + 1)
                (walkStep oldMap i st
                  (if item.replicationID = INDEX_NONE then markItemDirty st.ser item
                   else (st.ser, item)).1
                  (if item.replicationID = INDEX_NONE then markItemDirty st.ser item
                   else (st.ser, item)).2)).1,
            (buildWalk client oldMap rest (i + 1)
              (walkStep oldMap i st
                (if item.replicationID = INDEX_NONE then markItemDirty st.ser item
                 else (st.ser, item)).1
                (if item.replicationID = INDEX_NONE then markItemDirty st.ser item
                 else (st.ser, item)).2)).2) := by
        simp [buildWalk, h]
      rw [hunf] at hit ⊢
      set marked := (if item.replicationID = INDEX_NONE then markItemDirty st.ser item
        else (st.ser, item)) with hmarked
      set st₁ := walkStep oldMap i st marked.1 marked.2 with hst₁
      have hmono₁ : ∀ p ∈ st₁.changed, p.1 < i + 1 := by
        intro p hp
        rw [hst₁, walkStep_changed] at hp
        rcases List.mem_append.mp hp with hp | hp
        · have := hmono p hp; omega
        · by_cases hcase : oldFind oldMap marked.2.replicationID =
              some marked.2.replicationKey
          · rw [if_pos hcase] at hp; simp at hp
          · rw [if_neg hcase] at hp
            simp at hp
            rw [hp]
            exact Nat.lt_succ_self i
      cases k with
      | zero =>
        simp only [List.get?_cons_zero, Option.some.injEq] at hit
        constructor
        · rintro ⟨id, hid⟩
          obtain ⟨tail, h1, h2, _⟩ := buildWalk_changed_append client oldMap rest (i + 1) st₁
          simp only at hid
          rw [h1] at hid
          refine ⟨hit ▸ marked_shouldWrite client st.ser item h, ?_⟩
          rcases List.mem_append.mp hid with hid | hid
          · rw [hst₁, walkStep_changed] at hid
            rcases List.mem_append.mp hid with hid | hid
            · exact absurd (hmono _ hid) (by omega)
            · by_cases hcase : oldFind oldMap marked.2.replicationID =
                  some marked.2.replicationKey
              · rw [if_pos hcase] at hid; simp at hid
              · rw [← hit]
                exact hcase
          · have := (h2 _ hid).1
            omega
        · rintro ⟨_, hne⟩
          obtain ⟨tail, h1, _, _⟩ := buildWalk_changed_append client oldMap rest (i + 1) st₁
          refine ⟨marked.2.replicationID, ?_⟩
          simp only
          rw [h1]
          apply List.mem_append.mpr
          left
          rw [hst₁, walkStep_changed, if_neg (hit ▸ hne)]
          simp
      | succ k =>
        simp only [List.get?_cons_succ] at hit
        have hrw : i + (k + 1) = (i + 1) + k := by omega
        rw [hrw]
        exact ih (i + 1) st₁ hmono₁ k it hit

theorem mapContains_cons_of {m : IntMap} {p : Int × Int} {x : Int}
    (h : mapContains m x = true) : mapContains (p :: m) x = true := by
  by_cases hp : p.1 = x
  · simp [mapContains, mapFind, hp]
  · simpa [mapContains, mapFind, hp] using h

theorem mapContains_head (m : IntMap) (p : Int × Int) :
    mapContains (p :: m) p.1 = true := by
  simp [mapContains, mapFind]

/-- Every id the deleted-elements loop records is present in the old map and
absent from the new map. -/
theorem buildDeletedLoop_mem (newMap : IntMap) :
    ∀ (m : IntMap) (dc : Int) (acc : List Int),
      ∀ x ∈ (buildDeletedLoop newMap m dc acc).1,
        x ∈ acc ∨ (mapContains newMap x = false ∧ mapContains m x = true) := by
  intro m
  induction m with
  | nil =>
    intro dc acc x hx
    simp only [buildDeletedLoop] at hx
    exact Or.inl hx
  | cons p rest ih =>
    intro dc acc x hx
    by_cases hc : mapContains newMap p.1 = false
    · simp only [buildDeletedLoop, hc, if_true] at hx
      by_cases hdc : dc - 1 ≤ 0
      · rw [if_pos hdc] at hx
        rcases List.mem_append.mp hx with hx | hx
        · exact Or.inl hx
        · simp at hx
          right
          rw [hx]
          exact ⟨hc, mapContains_head rest p⟩
      · rw [if_neg hdc] at hx
        rcases ih (dc - 1) (acc ++ [p.1]) x hx with hx | hx
        · rcases List.mem_append.mp hx with hx | hx
          · exact Or.inl hx
          · simp at hx
            right
            rw [hx]
            exact ⟨hc, mapContains_head rest p⟩
        · exact Or.inr ⟨hx.1, mapContains_cons_of hx.2⟩
    · simp only [buildDeletedLoop, hc, if_false] at hx
      rcases ih dc acc x hx with hx | hx
      · exact Or.inl hx
      · exact Or.inr ⟨hx.1, mapContains_cons_of hx.2⟩

/-- The deleted-elements loop never records more ids than the (positive)
delete count it was handed. -/
theorem buildDeletedLoop_length (newMap : IntMap) :
    ∀ (m : IntMap) (dc : Int) (acc : List Int), 0 < dc →
      ((buildDeletedLoop newMap m dc acc).1.length : Int) ≤ (acc.length : Int) + dc := by
  intro m
  induction m with
  | nil =>
    intro dc acc hdc
    simp only [buildDeletedLoop]
    omega
  | cons p rest ih =>
    intro dc acc hdc
    by_cases hc : mapContains newMap p.1 = false
    · simp only [buildDeletedLoop, hc, if_true]
      by_cases hstop : dc - 1 ≤ 0
      · rw [if_pos hstop]
        simp only [List.length_append, List.length_singleton]
        push_cast
        omega
      · rw [if_neg hstop]
        have := ih (dc - 1) (acc ++ [p.1]) (by omega)
        simp only [List.length_append, List.length_singleton] at this
        push_cast at this ⊢
        omega
    · simp only [buildDeletedLoop, hc, if_false]
      exact ih dc acc hdc
end BuildWalkLemmas

/-- C1: for a collection walk against an old base-state map, the walk
classifies a considered record as "changed" exactly when its id is absent
from the old map or present with a different key (same-key records are
skipped); the deleted buffer only ever holds ids present in the old map and
absent from the freshly built map; and its size is bounded by the delete
count: old-map size minus considered-item count plus one per record the walk
classified as new. -/
theorem buildChangedAndDeletedBuffers_spec (client : Bool) (m : IntMap)
    (items : List FItem) (ser : FFastArraySerializer) :
    ((buildChangedAndDeletedBuffers client (some m) items ser).items.length =
      items.length) ∧
    (∀ (k : Nat) (it : FItem),
      (buildChangedAndDeletedBuffers client (some m) items ser).items.get? k = some it →
      ((∃ id, (k, id) ∈ (buildChangedAndDeletedBuffers client (some m) items ser).changed) ↔
        (shouldWriteFastArrayItem it client = true ∧
          mapFind m it.replicationID ≠ some it.replicationKey))) ∧
    (∀ x ∈ (buildChangedAndDeletedBuffers client (some m) items ser).deleted,
      mapContains m x = true ∧
      mapContains (buildChangedAndDeletedBuffers client (some m) items ser).newMap x
        = false) ∧
    (((buildChangedAndDeletedBuffers client (some m) items ser).deleted.length : Int) ≤
      max 0 ((m.length : Int) - (calcNumItemsForConsideration items client : Int) +
        (((buildChangedAndDeletedBuffers client (some m) items ser).changed.filter
            fun p => (mapFind m p.2).isNone).length : Int))) := by
  simp only [buildChangedAndDeletedBuffers]
  set dc0 : Int := (m.length : Int) - (calcNumItemsForConsideration items client : Int)
    with hdc0
  set st0 : WalkState := ⟨ser, [], [], dc0⟩ with hst0
  set w := buildWalk client (some m) items 0 st0 with hw
  obtain ⟨tail, htail1, _, htail3⟩ := buildWalk_changed_append client (some m) items 0 st0
  have hchanged : w.2.changed = tail := by
    rw [← hw] at htail1
    simpa using htail1
  have hdc : w.2.deleteCount = dc0 +
      ((tail.filter fun p => (oldFind (some m) p.2).isNone).length : Int) := by
    rw [← hw] at htail3
    simpa using htail3
  refine ⟨?_, ?_, ?_, ?_⟩
  · exact buildWalk_length client (some m) items 0 st0
  · intro k it hit
    have := buildWalk_changed_iff client (some m) items 0 st0 (by simp [hst0]) k it hit
    simpa [oldFind] using this
  · intro x hx
    by_cases hpos : w.2.deleteCount > 0
    · rw [if_pos hpos] at hx
      rcases buildDeletedLoop_mem w.2.newMap m w.2.deleteCount [] x hx with hmem | hmem
      · simp at hmem
      · exact ⟨hmem.2, hmem.1⟩
    · rw [if_neg hpos] at hx
      simp at hx
  · by_cases hpos : w.2.deleteCount > 0
    · rw [if_pos hpos]
      have hlen := buildDeletedLoop_length w.2.newMap m w.2.deleteCount [] hpos
      simp only [List.length_nil] at hlen
      have hfil : ((w.2.changed.filter fun p => (mapFind m p.2).isNone).length : Int) =
          ((tail.filter fun p => (oldFind (some m) p.2).isNone).length : Int) := by
        rw [hchanged]
        rfl
      rw [hfil]
      have : w.2.deleteCount ≤
          max 0 (dc0 + ((tail.filter fun p => (oldFind (some m) p.2).isNone).length : Int)) := by
        rw [← hdc]
        exact le_max_of_le_right (le_refl _)
      omega
    · rw [if_neg hpos]
      simp only [List.length_nil]
      positivity

/-- C1 witness: a concrete walk — old map `{1 ↦ 5, 3 ↦ 9}`, items `[id 1 at
key 5, id 2 at key 7]` — through the per-index clause of the specification:
the record at index 1 (id 2, absent from the old map) is classified changed. -/
theorem buildChangedAndDeletedBuffers_spec_witness :
    (∃ id, (1, id) ∈ (buildChangedAndDeletedBuffers false (some [(1, 5), (3, 9)])
        [⟨1, 5, 0⟩, ⟨2, 7, 0⟩] ⟨[], 10, 20, INDEX_NONE, INDEX_NONE, []⟩).changed) ↔
      (shouldWriteFastArrayItem ⟨2, 7, 0⟩ false = true ∧
        mapFind [(1, 5), (3, 9)] (2 : Int) ≠ some 7) :=
  (buildChangedAndDeletedBuffers_spec false [(1, 5), (3, 9)]
      [⟨1, 5, 0⟩, ⟨2, 7, 0⟩] ⟨[], 10, 20, INDEX_NONE, INDEX_NONE, []⟩).2.1 1 ⟨2, 7, 0⟩
    (by decide)

/-! ## Receive side: `PostReceiveCleanup` -/

/-- The default-constructed item (`FFastArraySerializerItem()`): all
bookkeeping fields start at `INDEX_NONE`. -/
instance : Inhabited FItem := ⟨⟨INDEX_NONE, INDEX_NONE, INDEX_NONE⟩⟩

/-- One observable action of the receive path, in firing order: the
per-record and collection-level lifecycle callbacks, the physical
swap-removals and the final item-map invalidation. -/
inductive REvent where
  | preRemoveItem (idx : Int)
  | preRemoveBatch (removed : List Int) (finalSize : Int)
  | postAddItem (idx : Int)
  | postAddBatch (added : List Int) (finalSize : Int)
  | postChangeItem (idx : Int)
  | postChangeBatch (changed : List Int) (finalSize : Int)
  | physicalRemove (idx : Int)
  | itemMapCleared
deriving DecidableEq, Repr

/-- The implicit-delete scan of `PostReceiveCleanup`: any record whose
`MostRecentArrayReplicationKey` lies strictly between the delta's base key
and its new array key was dropped by a superseded update; add its index to
the deleted list unless it is already there. -/
def implicitScanLoop (hdr : FFastArraySerializerHeader) :
    List FItem → Int → List Int → List Int
  | [], _, del => del
  | it :: rest, idx, del =>
    if it.mostRecentArrayReplicationKey < hdr.arrayReplicationKey ∧
        it.mostRecentArrayReplicationKey > hdr.baseReplicationKey then
      if idx ∈ del then implicitScanLoop hdr rest (idx + 1) del
      else implicitScanLoop hdr rest (idx + 1) (del ++ [idx])
    else implicitScanLoop hdr rest (idx + 1) del

/-- `TArray::Sort` (ascending) followed by the descending iteration order of
the physical-removal loop. -/
def sortedDescending (l : List Int) : List Int :=
  (List.insertionSort (· ≤ ·) l).reverse

/-- The physical-removal loop: for each index, in descending order, if it is
still a valid index, swap-remove it — `RemoveAtSwap` moves the last element
into the hole and pops the tail.  Also records one trace event per removal. -/
def removeLoopEvents : List FItem → List Int → List FItem × List REvent
  | its, [] => (its, [])
  | its, d :: rest =>
    if 0 ≤ d ∧ d < (its.length : Int) then
      let its' := (its.set d.toNat (its.getLast?.getD default)).dropLast
      let r := removeLoopEvents its' rest
      (r.1, REvent.physicalRemove d :: r.2)
    else removeLoopEvents its rest

/-- The guid-reference cleanup done while firing the per-record remove
callbacks: drop the deferred-reference entry of each deleted record. -/
def removeGuidRefs (items : List FItem) (ser : FFastArraySerializer)
    (deleted : List Int) : FFastArraySerializer :=
  deleted.foldl
    (fun s d =>
      if 0 ≤ d ∧ d < (items.length : Int) then
        let victim := ((items.get? d.toNat).getD default).replicationID
        { s with guidReferencesMap := s.guidReferencesMap.filter (· ≠ victim) }
      else s)
    ser

/-- Result of `PostReceiveCleanup`. -/
structure CleanupResult where
  items : List FItem
  ser : FFastArraySerializer
  deletedIndices : List Int
  trace : List REvent
deriving DecidableEq, Repr

/-- `TFastArraySerializeHelper::PostReceiveCleanup`: look for implicit
deletes (skipped when the channel is fully reliable, `bInternalAck`), bump
the array replication key when anything changed, fire the remove → add →
change callbacks (per record, then collection-level, with indices still
valid), and only then physically remove the deleted records in descending
index order and invalidate the id → index map. -/
def postReceiveCleanup (internalAck : Bool) (hdr : FFastArraySerializerHeader)
    (changedIndices addedIndices : List Int) (items : List FItem)
    (ser : FFastArraySerializer) : CleanupResult :=
  -- implicit deletes that would happen due to Naks
  let deleted :=
    if internalAck then hdr.deletedIndices
    else implicitScanLoop hdr items 0 hdr.deletedIndices
  -- increment keys so that a client can re-serialize the array if needed
  let ser :=
    if deleted.length > 0 ∨ hdr.numChanged > 0 then incrementArrayReplicationKey ser
    else ser
  let ser := removeGuidRefs items ser deleted
  let preRemoveSize : Int := items.length
  let finalSize : Int := preRemoveSize - deleted.length
  -- invoke all callbacks: removed -> added -> changed
  let trace :=
    ((deleted.filter fun d => decide (0 ≤ d ∧ d < (items.length : Int))).map
        REvent.preRemoveItem)
      ++ [REvent.preRemoveBatch deleted finalSize]
      ++ (addedIndices.map REvent.postAddItem)
      ++ [REvent.postAddBatch addedIndices finalSize]
      ++ (changedIndices.map REvent.postChangeItem)
      ++ [REvent.postChangeBatch changedIndices finalSize]
  if deleted.length > 0 then
    let rem := removeLoopEvents items (sortedDescending deleted)
    { items := rem.1
      ser := { ser with itemMap := [] }
      deletedIndices := deleted
      trace := trace ++ rem.2 ++ [REvent.itemMapCleared] }
  else
    { items := items, ser := ser, deletedIndices := deleted, trace := trace }

/-- C9: with fully reliable delivery (`bInternalAck`), implicit-delete
detection is skipped outright: the deleted set of the round is exactly the
explicitly decoded deleted list, and removal operates on that list alone. -/
theorem postReceiveCleanup_internalAck_skips_implicit (hdr : FFastArraySerializerHeader)
    (changedIndices addedIndices : List Int) (items : List FItem)
    (ser : FFastArraySerializer) :
    ((postReceiveCleanup true hdr changedIndices addedIndices items ser).deletedIndices =
      hdr.deletedIndices) ∧
    ((postReceiveCleanup true hdr changedIndices addedIndices items ser).items =
      if hdr.deletedIndices.length > 0 then
        (removeLoopEvents items (sortedDescending hdr.deletedIndices)).1
      else items) := by
  constructor
  · simp only [postReceiveCleanup]
    by_cases hd : hdr.deletedIndices.length > 0 <;> simp [hd]
  · simp only [postReceiveCleanup]
    by_cases hd : hdr.deletedIndices.length > 0 <;> simp [hd]

section ReceiveLemmas

theorem sortedDescending_perm (l : List Int) : List.Perm (sortedDescending l) l := by
  unfold sortedDescending
  exact (List.reverse_perm _).trans (List.perm_insertionSort _ l)

theorem mem_sortedDescending {l : List Int} {x : Int} :
    x ∈ sortedDescending l ↔ x ∈ l :=
  (sortedDescending_perm l).mem_iff

theorem sortedDescending_pairwise {l : List Int} (h : l.Nodup) :
    (sortedDescending l).Pairwise (· > ·) := by
  unfold sortedDescending
  rw [List.pairwise_reverse]
  have hsorted : (List.insertionSort (· ≤ ·) l).Pairwise (· ≤ ·) :=
    List.sorted_insertionSort _ l
  have hnodup : (List.insertionSort (· ≤ ·) l).Pairwise (· ≠ ·) :=
    ((List.perm_insertionSort _ l).nodup_iff).mpr h
  exact (hsorted.and hnodup).imp fun hab => lt_of_le_of_ne hab.1 hab.2

theorem sortedDescending_nodup {l : List Int} (h : l.Nodup) :
    (sortedDescending l).Nodup :=
  ((sortedDescending_perm l).nodup_iff).mpr h

theorem sortedDescending_length (l : List Int) :
    (sortedDescending l).length = l.length :=
  (sortedDescending_perm l).length_eq

/-- Specification of the descending swap-removal loop: on a strictly
descending list of valid indices it removes exactly one element per index
(one trace event each), and the survivors are precisely the elements at
the non-deleted positions. -/
theorem removeLoopEvents_spec :
    ∀ (dels : List Int) (its : List FItem),
      dels.Pairwise (· > ·) →
      (∀ d ∈ dels, 0 ≤ d ∧ d < (its.length : Int)) →
      ((removeLoopEvents its dels).2 = dels.map REvent.physicalRemove) ∧
      ((removeLoopEvents its dels).1.length = its.length - dels.length) ∧
      (∀ x ∈ (removeLoopEvents its dels).1,
        ∃ j : Nat, j < its.length ∧ ((j : Int) ∉ dels) ∧ its.get? j = some x) ∧
      (∀ j : Nat, j < its.length → ((j : Int) ∉ dels) →
        ∀ x, its.get? j = some x → x ∈ (removeLoopEvents its dels).1) := by
  intro dels
  induction dels with
  | nil =>
    intro its _ _
    refine ⟨rfl, by simp [removeLoopEvents], ?_, ?_⟩
    · intro x hx
      simp only [removeLoopEvents] at hx
      obtain ⟨j, hj⟩ := List.mem_iff_get?.mp hx
      have hlt : j < its.length := by
        rcases List.get?_eq_some.mp hj with ⟨h, _⟩
        exact h
      exact ⟨j, hlt, by simp, hj⟩
    · intro j _ _ x hx
      simp only [removeLoopEvents]
      exact List.get?_mem hx
  | cons d rest ih =>
    intro its hpw hval
    have hd := hval d (by simp)
    have hd0 : 0 ≤ d := hd.1
    have hdlen : d < (its.length : Int) := hd.2
    have hlen0 : 0 < its.length := by omega
    have hdt : d.toNat < its.length := by omega
    -- the last element, which the swap moves into the hole
    obtain ⟨last, hlast⟩ : ∃ y, its.getLast? = some y := by
      cases hgl : its.getLast? with
      | none =>
        rw [List.getLast?_eq_none_iff] at hgl
        rw [hgl] at hlen0
        simp at hlen0
      | some y => exact ⟨y, rfl⟩
    have hlastget : its.get? (its.length - 1) = some last := by
      rw [← List.getLast?_eq_get? its]
      exact hlast
    set its' := (its.set d.toNat (its.getLast?.getD default)).dropLast with hits'
    have hgetD : its.getLast?.getD default = last := by rw [hlast]; rfl
    have hlen' : its'.length = its.length - 1 := by
      rw [hits']
      simp
    -- index transfer through set-then-dropLast
    have hget' : ∀ j : Nat, j < its.length - 1 →
        its'.get? j = if j = d.toNat then some last else its.get? j := by
      intro j hj
      rw [hits', List.dropLast_eq_take, List.length_set, List.get?_take hj]
      by_cases hjd : j = d.toNat
      · rw [hjd, hgetD]
        rw [List.get?_set_eq]
        simp only [List.get?_eq_getElem?]
        rw [List.getElem?_eq_getElem hdt]
        simp [hjd]
      · rw [List.get?_set_ne _ _ fun h => hjd h.symm]
        simp [hjd]
    have hpwrest : rest.Pairwise (· > ·) := hpw.tail
    have hrestlt : ∀ e ∈ rest, e < d := by
      intro e he
      exact (List.pairwise_cons.mp hpw).1 e he
    have hvalrest : ∀ e ∈ rest, 0 ≤ e ∧ e < (its'.length : Int) := by
      intro e he
      have h1 := hval e (List.mem_cons_of_mem _ he)
      have h2 := hrestlt e he
      rw [hlen']
      omega
    obtain ⟨ihev, ihlen, ihA, ihB⟩ := ih its' hpwrest hvalrest
    have hbranch : removeLoopEvents its (d :: rest) =
        ((removeLoopEvents its' rest).1,
          REvent.physicalRemove d :: (removeLoopEvents its' rest).2) := by
      simp only [removeLoopEvents]
      rw [if_pos ⟨hd0, hdlen⟩]
    rw [hbranch]
    refine ⟨?_, ?_, ?_, ?_⟩
    · simp only [List.map_cons]
      rw [ihev]
    · rw [ihlen, hlen']
      simp only [List.length_cons]
      omega
    · intro x hx
      obtain ⟨j, hj1, hj2, hj3⟩ := ihA x hx
      rw [hlen'] at hj1
      rw [hget' j hj1] at hj3
      by_cases hjd : j = d.toNat
      · rw [if_pos hjd] at hj3
        refine ⟨its.length - 1, by omega, ?_, ?_⟩
        · intro hmem
          rcases List.mem_cons.mp hmem with hc | hc
          · omega
          · have := hrestlt _ hc
            omega
        · rw [hlastget, hj3]
      · rw [if_neg hjd] at hj3
        refine ⟨j, by omega, ?_, hj3⟩
        intro hmem
        rcases List.mem_cons.mp hmem with hc | hc
        · omega
        · exact hj2 hc
    · intro j hj hjmem x hx
      have hjd : (j : Int) ≠ d := fun hc => hjmem (by rw [hc]; simp)
      have hjrest : (j : Int) ∉ rest := fun hc => hjmem (List.mem_cons_of_mem _ hc)
      by_cases hjtop : j = its.length - 1
      · -- the element at the top position survives at the hole position
        have hddlt : d.toNat < its.length - 1 := by omega
        apply ihB d.toNat (by omega)
          (fun hc => by have := hrestlt _ hc; omega) x
        rw [hget' d.toNat (by omega), if_pos rfl]
        rw [hjtop] at hx
        rw [hlastget] at hx
        exact hx
      · apply ihB j (by omega) hjrest x
        rw [hget' j (by omega), if_neg (by omega)]
        exact hx

/-- Structure of the implicit-delete scan output: it extends the incoming
deleted list with indices of the scanned range only, never duplicating an
entry. -/
theorem implicitScanLoop_spec (hdr : FFastArraySerializerHeader) :
    ∀ (items : List FItem) (idx : Int) (del : List Int),
      ∃ extra,
        implicitScanLoop hdr items idx del = del ++ extra ∧
        (∀ e ∈ extra, idx ≤ e ∧ e < idx + (items.length : Int) ∧ e ∉ del) ∧
        (del.Nodup → (del ++ extra).Nodup) := by
  intro items
  induction items with
  | nil =>
    intro idx del
    exact ⟨[], by simp [implicitScanLoop], by simp, by simp⟩
  | cons it rest ih =>
    intro idx del
    by_cases hcond : it.mostRecentArrayReplicationKey < hdr.arrayReplicationKey ∧
        it.mostRecentArrayReplicationKey > hdr.baseReplicationKey
    · by_cases hmem : idx ∈ del
      · obtain ⟨extra, h1, h2, h3⟩ := ih (idx + 1) del
        refine ⟨extra, ?_, ?_, h3⟩
        · simp only [implicitScanLoop, if_pos hcond, if_pos hmem]
          exact h1
        · intro e he
          obtain ⟨ha, hb, hc⟩ := h2 e he
          simp only [List.length_cons]
          push_cast
          exact ⟨by omega, by omega, hc⟩
      · obtain ⟨extra, h1, h2, h3⟩ := ih (idx + 1) (del ++ [idx])
        refine ⟨idx :: extra, ?_, ?_, ?_⟩
        · simp only [implicitScanLoop, if_pos hcond, if_neg hmem]
          rw [h1]
          simp
        · intro e he
          rcases List.mem_cons.mp he with he | he
          · subst he
            refine ⟨le_refl _, ?_, hmem⟩
            simp only [List.length_cons]
            push_cast
            omega
          · obtain ⟨ha, hb, hc⟩ := h2 e he
            simp only [List.length_cons]
            push_cast
            refine ⟨by omega, by omega, ?_⟩
            intro hx
            exact hc (List.mem_append_left _ hx)
        · intro hnd
          have hnd' : (del ++ [idx]).Nodup := by
            rw [← List.concat_eq_append]
            exact hnd.concat hmem
          have := h3 hnd'
          rw [List.append_assoc] at this
          simpa using this
    · obtain ⟨extra, h1, h2, h3⟩ := ih (idx + 1) del
      refine ⟨extra, ?_, ?_, h3⟩
      · simp only [implicitScanLoop, if_neg hcond]
        exact h1
      · intro e he
        obtain ⟨ha, hb, hc⟩ := h2 e he
        simp only [List.length_cons]
        push_cast
        exact ⟨by omega, by omega, hc⟩

/-- Completeness of the implicit-delete scan: a record in the key range ends
up in the deleted list (whether or not it was already there). -/
theorem implicitScanLoop_complete (hdr : FFastArraySerializerHeader) :
    ∀ (items : List FItem) (idx : Int) (del : List Int) (j : Nat) (it : FItem),
      items.get? j = some it →
      it.mostRecentArrayReplicationKey < hdr.arrayReplicationKey →
      it.mostRecentArrayReplicationKey > hdr.baseReplicationKey →
      (idx + (j : Int)) ∈ implicitScanLoop hdr items idx del := by
  intro items
  induction items with
  | nil =>
    intro idx del j it hit _ _
    simp at hit
  | cons item rest ih =>
    intro idx del j it hit h1 h2
    cases j with
    | zero =>
      simp only [List.get?_cons_zero, Option.some.injEq] at hit
      subst hit
      have hcond : item.mostRecentArrayReplicationKey < hdr.arrayReplicationKey ∧
          item.mostRecentArrayReplicationKey > hdr.baseReplicationKey := ⟨h1, h2⟩
      simp only [implicitScanLoop, if_pos hcond]
      by_cases hmem : idx ∈ del
      · rw [if_pos hmem]
        obtain ⟨extra, he1, _, _⟩ := implicitScanLoop_spec hdr rest (idx + 1) del
        rw [he1]
        simpa using Or.inl hmem
      · rw [if_neg hmem]
        obtain ⟨extra, he1, _, _⟩ := implicitScanLoop_spec hdr rest (idx + 1) (del ++ [idx])
        rw [he1]
        simp
    | succ j =>
      simp only [List.get?_cons_succ] at hit
      by_cases hcond : item.mostRecentArrayReplicationKey < hdr.arrayReplicationKey ∧
          item.mostRecentArrayReplicationKey > hdr.baseReplicationKey
      · by_cases hmem : idx ∈ del
        · simp only [implicitScanLoop, if_pos hcond, if_pos hmem]
          push_cast
          rw [show idx + ((j : Int) + 1) = (idx + 1) + (j : Int) from by ring]
          exact ih (idx + 1) del j it hit h1 h2
        · simp only [implicitScanLoop, if_pos hcond, if_neg hmem]
          push_cast
          rw [show idx + ((j : Int) + 1) = (idx + 1) + (j : Int) from by ring]
          exact ih (idx + 1) (del ++ [idx]) j it hit h1 h2
      · simp only [implicitScanLoop, if_neg hcond]
        push_cast
        rw [show idx + ((j : Int) + 1) = (idx + 1) + (j : Int) from by ring]
        exact ih (idx + 1) del j it hit h1 h2

end ReceiveLemmas

/-- C4: for every received delta, the trace is exactly: per-record remove
callbacks then the collection-level remove callback, per-record add callbacks
then the collection-level add callback, per-record change callbacks then the
collection-level change callback — and only after all callbacks do the
physical swap-removals happen, on the sorted deleted indices from highest to
lowest, after which the id → position map is fully cleared (to be lazily
rebuilt).  The final item list is exactly the result of that removal loop. -/
theorem postReceiveCleanup_callback_order (internalAck : Bool)
    (hdr : FFastArraySerializerHeader) (changedIndices addedIndices : List Int)
    (items : List FItem) (ser : FFastArraySerializer)
    (hvalid : ∀ d ∈ hdr.deletedIndices, 0 ≤ d ∧ d < (items.length : Int))
    (hnodup : hdr.deletedIndices.Nodup) :
    ((postReceiveCleanup internalAck hdr changedIndices addedIndices items ser).trace =
      (((postReceiveCleanup internalAck hdr changedIndices addedIndices items
            ser).deletedIndices.map REvent.preRemoveItem)
        ++ [REvent.preRemoveBatch
              (postReceiveCleanup internalAck hdr changedIndices addedIndices items
                ser).deletedIndices
              ((items.length : Int) -
                ((postReceiveCleanup internalAck hdr changedIndices addedIndices items
                  ser).deletedIndices.length : Int))]
        ++ (addedIndices.map REvent.postAddItem)
        ++ [REvent.postAddBatch addedIndices
              ((items.length : Int) -
                ((postReceiveCleanup internalAck hdr changedIndices addedIndices items
                  ser).deletedIndices.length : Int))]
        ++ (changedIndices.map REvent.postChangeItem)
        ++ [REvent.postChangeBatch changedIndices
              ((items.length : Int) -
                ((postReceiveCleanup internalAck hdr changedIndices addedIndices items
                  ser).deletedIndices.length : Int))]
        ++ ((sortedDescending (postReceiveCleanup internalAck hdr changedIndices
              addedIndices items ser).deletedIndices).map REvent.physicalRemove)
        ++ (if (postReceiveCleanup internalAck hdr changedIndices addedIndices items
              ser).deletedIndices.length > 0 then [REvent.itemMapCleared] else []))) ∧
    ((postReceiveCleanup internalAck hdr changedIndices addedIndices items
        ser).deletedIndices.length > 0 →
      (postReceiveCleanup internalAck hdr changedIndices addedIndices items
        ser).ser.itemMap = []) ∧
    ((postReceiveCleanup internalAck hdr changedIndices addedIndices items ser).items =
      (removeLoopEvents items
        (sortedDescending (postReceiveCleanup internalAck hdr changedIndices
          addedIndices items ser).deletedIndices)).1) := by
  have hdelspec : ∀ d ∈ (if internalAck then hdr.deletedIndices
      else implicitScanLoop hdr items 0 hdr.deletedIndices), 0 ≤ d ∧ d < (items.length : Int) := by
    by_cases hack : internalAck
    · rw [if_pos hack]
      exact hvalid
    · rw [if_neg hack]
      obtain ⟨extra, h1, h2, _⟩ := implicitScanLoop_spec hdr items 0 hdr.deletedIndices
      rw [h1]
      intro d hd
      rcases List.mem_append.mp hd with hd | hd
      · exact hvalid d hd
      · have := h2 d hd
        omega
  have hdelnodup : (if internalAck then hdr.deletedIndices
      else implicitScanLoop hdr items 0 hdr.deletedIndices).Nodup := by
    by_cases hack : internalAck
    · rw [if_pos hack]
      exact hnodup
    · rw [if_neg hack]
      obtain ⟨extra, h1, _, h3⟩ := implicitScanLoop_spec hdr items 0 hdr.deletedIndices
      rw [h1]
      exact h3 hnodup
  have hdeleted : (postReceiveCleanup internalAck hdr changedIndices addedIndices items
      ser).deletedIndices = (if internalAck then hdr.deletedIndices
      else implicitScanLoop hdr items 0 hdr.deletedIndices) := by
    simp only [postReceiveCleanup]
    by_cases hd : (if internalAck then hdr.deletedIndices
        else implicitScanLoop hdr items 0 hdr.deletedIndices).length > 0 <;>
      simp [hd]
  set deleted := (if internalAck then hdr.deletedIndices
    else implicitScanLoop hdr items 0 hdr.deletedIndices) with hdeleq
  have hfilter : (deleted.filter fun d => decide (0 ≤ d ∧ d < (items.length : Int)))
      = deleted :=
    List.filter_eq_self.mpr fun d hd => decide_eq_true (hdelspec d hd)
  obtain ⟨hrmev, _, _, _⟩ := removeLoopEvents_spec (sortedDescending deleted) items
    (sortedDescending_pairwise hdelnodup)
    (fun d hd => hdelspec d (mem_sortedDescending.mp hd))
  rw [hdeleted]
  by_cases hd : deleted.length > 0
  · have hres : postReceiveCleanup internalAck hdr changedIndices addedIndices items ser =
        { items := (removeLoopEvents items (sortedDescending deleted)).1
          ser := { removeGuidRefs items
              (if deleted.length > 0 ∨ hdr.numChanged > 0 then
                incrementArrayReplicationKey ser else ser) deleted with itemMap := [] }
          deletedIndices := deleted
          trace :=
            (((deleted.filter fun d => decide (0 ≤ d ∧ d < (items.length : Int))).map
                REvent.preRemoveItem)
              ++ [REvent.preRemoveBatch deleted ((items.length : Int) - deleted.length)]
              ++ (addedIndices.map REvent.postAddItem)
              ++ [REvent.postAddBatch addedIndices ((items.length : Int) - deleted.length)]
              ++ (changedIndices.map REvent.postChangeItem)
              ++ [REvent.postChangeBatch changedIndices
                    ((items.length : Int) - deleted.length)])
              ++ (removeLoopEvents items (sortedDescending deleted)).2
              ++ [REvent.itemMapCleared] } := by
      simp only [postReceiveCleanup]
      rw [← hdeleq, if_pos hd]
    rw [hres]
    refine ⟨?_, fun _ => rfl, rfl⟩
    simp only [hfilter, hrmev]
    rw [if_pos hd]
  · have hdel0 : deleted = [] := List.eq_nil_of_length_eq_zero (by omega)
    have hres : postReceiveCleanup internalAck hdr changedIndices addedIndices items ser =
        { items := items
          ser := removeGuidRefs items
              (if deleted.length > 0 ∨ hdr.numChanged > 0 then
                incrementArrayReplicationKey ser else ser) deleted
          deletedIndices := deleted
          trace :=
            ((deleted.filter fun d => decide (0 ≤ d ∧ d < (items.length : Int))).map
                REvent.preRemoveItem)
              ++ [REvent.preRemoveBatch deleted ((items.length : Int) - deleted.length)]
              ++ (addedIndices.map REvent.postAddItem)
              ++ [REvent.postAddBatch addedIndices ((items.length : Int) - deleted.length)]
              ++ (changedIndices.map REvent.postChangeItem)
              ++ [REvent.postChangeBatch changedIndices
                    ((items.length : Int) - deleted.length)] } := by
      simp only [postReceiveCleanup]
      rw [← hdeleq, if_neg hd]
    rw [hres]
    refine ⟨?_, fun hc => absurd hc hd, ?_⟩
    · simp only [hfilter]
      rw [if_neg hd, hdel0]
      simp [sortedDescending, List.insertionSort, List.append_assoc, removeLoopEvents]
    · rw [hdel0]
      simp [sortedDescending, List.insertionSort, removeLoopEvents]

/-- C4 witness: a concrete receive (one explicit delete, one add, one change)
through the theorem, at which the hypotheses hold; after the round the item
map is cleared. -/
theorem postReceiveCleanup_callback_order_witness :
    (postReceiveCleanup true ⟨9, 5, 1, [0]⟩ [1] [] [⟨1, 0, 0⟩, ⟨2, 0, 0⟩]
        ⟨[(1, 0), (2, 1)], 5, 9, INDEX_NONE, INDEX_NONE, []⟩).ser.itemMap = [] :=
  (postReceiveCleanup_callback_order true ⟨9, 5, 1, [0]⟩ [1] [] [⟨1, 0, 0⟩, ⟨2, 0, 0⟩]
    ⟨[(1, 0), (2, 1)], 5, 9, INDEX_NONE, INDEX_NONE, []⟩
    (by intro d hd; simp at hd; subst hd; norm_num) (by simp)).2.1 (by decide)

/-- Distinct positions of a collection with pairwise distinct replication ids
hold records with distinct ids. -/
theorem nodup_ids_get?_ne {l : List FItem} (h : (l.map FItem.replicationID).Nodup)
    {i j : Nat} {a b : FItem} (hi : l.get? i = some a) (hj : l.get? j = some b)
    (hij : i ≠ j) : a.replicationID ≠ b.replicationID := by
  intro hcon
  have h1 : (l.map FItem.replicationID).get? i = some a.replicationID := by
    rw [List.get?_map, hi]
    rfl
  have h2 : (l.map FItem.replicationID).get? j = some b.replicationID := by
    rw [List.get?_map, hj]
    rfl
  have hilen : i < (l.map FItem.replicationID).length := by
    rcases List.get?_eq_some.mp h1 with ⟨hl, _⟩
    exact hl
  apply hij
  apply List.get?_inj hilen h
  rw [h1, h2, hcon]

/-- C2 counterexample: under fully reliable delivery (`bInternalAck`), a
record whose `MostRecentArrayReplicationKey = 6` lies strictly between the
base key 5 and the new array key 9 and is absent from the explicit deleted
set is *not* removed — implicit-delete detection is skipped on that path, so
the claim does not hold for every received delta. -/
theorem implicitDelete_skipped_when_internalAck :
    (postReceiveCleanup true ⟨9, 5, 0, []⟩ [] [] [⟨1, 0, 6⟩]
      ⟨[(1, 0)], 1, 9, INDEX_NONE, INDEX_NONE, []⟩).items = [⟨1, 0, 6⟩] := by decide

/-- C2 (amended): on a receive that is not fully reliable (`bInternalAck`
false), every existing record not in this round's explicit deleted set whose
`MostRecentArrayReplicationKey` lies strictly between the delta's base key
and its new array key is added to the deleted set and removed by
reconciliation: no record with its replication id survives. -/
theorem postReceiveCleanup_implicit_delete (hdr : FFastArraySerializerHeader)
    (changedIndices addedIndices : List Int) (items : List FItem)
    (ser : FFastArraySerializer) (idx : Nat) (item : FItem)
    (hitem : items.get? idx = some item)
    (hlow : hdr.baseReplicationKey < item.mostRecentArrayReplicationKey)
    (hhigh : item.mostRecentArrayReplicationKey < hdr.arrayReplicationKey)
    (hnotexp : (idx : Int) ∉ hdr.deletedIndices)
    (hvalid : ∀ d ∈ hdr.deletedIndices, 0 ≤ d ∧ d < (items.length : Int))
    (hnodup : hdr.deletedIndices.Nodup)
    (hids : (items.map FItem.replicationID).Nodup) :
    ((idx : Int) ∈ (postReceiveCleanup false hdr changedIndices addedIndices items
        ser).deletedIndices) ∧
    (∀ x ∈ (postReceiveCleanup false hdr changedIndices addedIndices items ser).items,
      x.replicationID ≠ item.replicationID) := by
  have hdelspec : ∀ d ∈ implicitScanLoop hdr items 0 hdr.deletedIndices,
      0 ≤ d ∧ d < (items.length : Int) := by
    obtain ⟨extra, h1, h2, _⟩ := implicitScanLoop_spec hdr items 0 hdr.deletedIndices
    rw [h1]
    intro d hd
    rcases List.mem_append.mp hd with hd | hd
    · exact hvalid d hd
    · have := h2 d hd
      omega
  have hdelnodup : (implicitScanLoop hdr items 0 hdr.deletedIndices).Nodup := by
    obtain ⟨extra, h1, _, h3⟩ := implicitScanLoop_spec hdr items 0 hdr.deletedIndices
    rw [h1]
    exact h3 hnodup
  have hmem : (idx : Int) ∈ implicitScanLoop hdr items 0 hdr.deletedIndices := by
    have := implicitScanLoop_complete hdr items 0 hdr.deletedIndices idx item hitem
      hhigh hlow
    simpa using this
  have hlen : (implicitScanLoop hdr items 0 hdr.deletedIndices).length > 0 :=
    List.length_pos.mpr (List.ne_nil_of_mem hmem)
  have hdeleted : (postReceiveCleanup false hdr changedIndices addedIndices items
      ser).deletedIndices = implicitScanLoop hdr items 0 hdr.deletedIndices := by
    simp only [postReceiveCleanup]
    simp [hlen]
  have hitems : (postReceiveCleanup false hdr changedIndices addedIndices items
      ser).items = (removeLoopEvents items
        (sortedDescending (implicitScanLoop hdr items 0 hdr.deletedIndices))).1 := by
    simp only [postReceiveCleanup]
    simp [hlen]
  refine ⟨by rw [hdeleted]; exact hmem, ?_⟩
  intro x hx
  rw [hitems] at hx
  obtain ⟨_, _, hA, _⟩ := removeLoopEvents_spec
    (sortedDescending (implicitScanLoop hdr items 0 hdr.deletedIndices)) items
    (sortedDescending_pairwise hdelnodup)
    (fun d hd => hdelspec d (mem_sortedDescending.mp hd))
  obtain ⟨j, hj1, hj2, hj3⟩ := hA x hx
  have hjidx : j ≠ idx := by
    intro hcon
    apply hj2
    rw [hcon]
    exact mem_sortedDescending.mpr hmem
  exact nodup_ids_get?_ne hids hj3 hitem hjidx

/-- C2 witness: the spec's concrete scenario — base key 5, new array key 9, a
single record at `MostRecentArrayReplicationKey = 6` and an empty explicit
deleted set — run through the amended theorem: the record's index enters the
deleted set and no record with its id survives reconciliation. -/
theorem postReceiveCleanup_implicit_delete_witness :
    ((0 : Int) ∈ (postReceiveCleanup false ⟨9, 5, 0, []⟩ [] [] [⟨1, 0, 6⟩]
        ⟨[(1, 0)], 1, 9, INDEX_NONE, INDEX_NONE, []⟩).deletedIndices) ∧
    (∀ x ∈ (postReceiveCleanup false ⟨9, 5, 0, []⟩ [] [] [⟨1, 0, 6⟩]
        ⟨[(1, 0)], 1, 9, INDEX_NONE, INDEX_NONE, []⟩).items,
      x.replicationID ≠ (1 : Int)) :=
  postReceiveCleanup_implicit_delete ⟨9, 5, 0, []⟩ [] [] [⟨1, 0, 6⟩]
    ⟨[(1, 0)], 1, 9, INDEX_NONE, INDEX_NONE, []⟩ 0 ⟨1, 0, 6⟩
    (by decide) (by norm_num) (by norm_num) (by simp) (by simp) (by simp) (by decide)

/-! ## Sender top level: `ConditionalCreateNewDeltaState` and the write path -/

/-- `TFastArraySerializeHelper::ConditionalCreateNewDeltaState`: when the
array replication key still equals the base state's key there is no
record-level work to do — refresh the cached item counts if needed, then
either share the existing old state or, if none exists, synthesize a fresh
trivial state carrying the current array key; returns false so that the
caller skips serialization.  When the keys differ, returns true. -/
def conditionalCreateNewDeltaState (items : List FItem) (client : Bool)
    (s : FFastArraySerializer) (oldState : Option FNetFastTArrayBaseState)
    (baseReplicationKey : Int) :
    Bool × FFastArraySerializer × Option FNetFastTArrayBaseState :=
  if s.arrayReplicationKey = baseReplicationKey then
    let s :=
      if s.cachedNumItems = INDEX_NONE ∨ s.cachedNumItems ≠ (items.length : Int) ∨
          s.cachedNumItemsToConsiderForWriting = INDEX_NONE then
        { s with
          cachedNumItems := (items.length : Int)
          cachedNumItemsToConsiderForWriting :=
            (calcNumItemsForConsideration items client : Int) }
      else s
    match oldState with
    | some old =>
      -- Nothing changed and we have a valid old state: use/share the existing
      -- state, no need to create a new one.
      (false, s, some old)
    | none =>
      -- Nothing changed but we have no state of our own yet: make one here.
      (false, s, some ⟨[], s.arrayReplicationKey⟩)
  else (true, s, none)

/-- Result of the write path of `FastArrayDeltaSerialize`: the return value,
the final serializer and item list, the new base state handed back through
`Parms.NewState`, and the wire words (header and changed-element ids; the
per-element payloads are emitted by the external `NetSerializeCB`). -/
structure WriteResult where
  ret : Bool
  ser : FFastArraySerializer
  items : List FItem
  newState : FNetFastTArrayBaseState
  wire : Option (List Int)
deriving DecidableEq, Repr

/-- The serialization body of the write path: build the changed/deleted
buffers against the old map, publish the new id → key map with the
(post-build) array key as the new base state, and emit the header followed by
each changed element's id. -/
def fastArrayWriteBody (maxDel maxChg : Int) (client : Bool) (items : List FItem)
    (s : FFastArraySerializer) (oldMap : Option IntMap) (baseKey : Int) : WriteResult :=
  -- the header captures the array key before the walk (the walk may bump it
  -- when it assigns ids via MarkItemDirty); the new state is re-read after
  let preKey := s.arrayReplicationKey
  let b := buildChangedAndDeletedBuffers client oldMap items s
  let hdr : FFastArraySerializerHeader := ⟨preKey, baseKey, (b.changed.length : Int), b.deleted⟩
  let wh := writeDeltaHeader maxDel maxChg hdr
  { ret := true
    ser := b.ser
    items := b.items
    newState := ⟨b.newMap, b.ser.arrayReplicationKey⟩
    wire := some (wh.wire ++ b.changed.map Prod.snd) }

/-- The write (saving) path of `FFastArraySerializer::FastArrayDeltaSerialize`:
with an old base state whose key matches, share it and emit nothing;
otherwise run the full body against the old map (or against nothing on first
contact). -/
def fastArrayDeltaSerialize_write (maxDel maxChg : Int) (client : Bool)
    (items : List FItem) (s : FFastArraySerializer)
    (oldState : Option FNetFastTArrayBaseState) : WriteResult :=
  match oldState with
  | some old =>
    let cond := conditionalCreateNewDeltaState items client s (some old)
      old.arrayReplicationKey
    if cond.1 = false then
      -- nothing changed: no new delta state, skip serialization entirely
      { ret := false, ser := cond.2.1, items := items,
        newState := (cond.2.2).getD ⟨[], INDEX_NONE⟩, wire := none }
    else
      fastArrayWriteBody maxDel maxChg client items cond.2.1 (some old.idToCLMap)
        old.arrayReplicationKey
  | none => fastArrayWriteBody maxDel maxChg client items s none INDEX_NONE

/-- C6: when the collection's array key equals the base state's recorded key,
no per-record work or wire emission happens: the helper reports "no new
state needed", shares the old state unchanged when one exists and
synthesizes a fresh trivial state carrying the current array key when none
does; the write path then returns false with no wire output, the published
old state shared as the new state, and the items untouched. -/
theorem conditionalCreateNewDeltaState_skip_spec (maxDel maxChg : Int) (client : Bool)
    (items : List FItem) (s : FFastArraySerializer) (old : FNetFastTArrayBaseState)
    (hkey : s.arrayReplicationKey = old.arrayReplicationKey) :
    ((conditionalCreateNewDeltaState items client s (some old)
        old.arrayReplicationKey).1 = false ∧
      (conditionalCreateNewDeltaState items client s (some old)
        old.arrayReplicationKey).2.2 = some old) ∧
    ((conditionalCreateNewDeltaState items client s none s.arrayReplicationKey).1 =
        false ∧
      (conditionalCreateNewDeltaState items client s none s.arrayReplicationKey).2.2 =
        some ⟨[], s.arrayReplicationKey⟩) ∧
    ((fastArrayDeltaSerialize_write maxDel maxChg client items s (some old)).ret =
        false ∧
      (fastArrayDeltaSerialize_write maxDel maxChg client items s (some old)).wire =
        none ∧
      (fastArrayDeltaSerialize_write maxDel maxChg client items s (some old)).newState =
        old ∧
      (fastArrayDeltaSerialize_write maxDel maxChg client items s (some old)).items =
        items) := by
  have hcond1 : (conditionalCreateNewDeltaState items client s (some old)
      old.arrayReplicationKey).1 = false := by
    simp only [conditionalCreateNewDeltaState, if_pos hkey]
  have hcond2 : (conditionalCreateNewDeltaState items client s (some old)
      old.arrayReplicationKey).2.2 = some old := by
    simp only [conditionalCreateNewDeltaState, if_pos hkey]
  refine ⟨⟨hcond1, hcond2⟩, ⟨?_, ?_⟩, ?_⟩
  · simp [conditionalCreateNewDeltaState]
  · by_cases hc : s.cachedNumItems = INDEX_NONE ∨ s.cachedNumItems ≠ (items.length : Int) ∨
        s.cachedNumItemsToConsiderForWriting = INDEX_NONE
    · simp [conditionalCreateNewDeltaState, hc]
    · simp [conditionalCreateNewDeltaState, hc]
  · have hbr : fastArrayDeltaSerialize_write maxDel maxChg client items s (some old) =
        { ret := false
          ser := (conditionalCreateNewDeltaState items client s (some old)
            old.arrayReplicationKey).2.1
          items := items
          newState := ((conditionalCreateNewDeltaState items client s (some old)
            old.arrayReplicationKey).2.2).getD ⟨[], INDEX_NONE⟩
          wire := none } := by
      simp only [fastArrayDeltaSerialize_write]
      rw [if_pos hcond1]
    rw [hbr]
    refine ⟨rfl, rfl, ?_, rfl⟩
    rw [hcond2]
    rfl

/-- C6 witness: a concrete serializer whose array key `7` matches the base
state's recorded key: the write path shares the old state, emits nothing and
returns false. -/
theorem conditionalCreateNewDeltaState_skip_spec_witness :
    ((fastArrayDeltaSerialize_write 2048 2048 false [⟨1, 3, 0⟩]
        ⟨[(1, 0)], 1, 7, INDEX_NONE, INDEX_NONE, []⟩ (some ⟨[(1, 3)], 7⟩)).ret = false ∧
      (fastArrayDeltaSerialize_write 2048 2048 false [⟨1, 3, 0⟩]
        ⟨[(1, 0)], 1, 7, INDEX_NONE, INDEX_NONE, []⟩ (some ⟨[(1, 3)], 7⟩)).wire = none ∧
      (fastArrayDeltaSerialize_write 2048 2048 false [⟨1, 3, 0⟩]
        ⟨[(1, 0)], 1, 7, INDEX_NONE, INDEX_NONE, []⟩ (some ⟨[(1, 3)], 7⟩)).newState =
        ⟨[(1, 3)], 7⟩ ∧
      (fastArrayDeltaSerialize_write 2048 2048 false [⟨1, 3, 0⟩]
        ⟨[(1, 0)], 1, 7, INDEX_NONE, INDEX_NONE, []⟩ (some ⟨[(1, 3)], 7⟩)).items =
        [⟨1, 3, 0⟩]) :=
  (conditionalCreateNewDeltaState_skip_spec 2048 2048 false [⟨1, 3, 0⟩]
    ⟨[(1, 0)], 1, 7, INDEX_NONE, INDEX_NONE, []⟩ ⟨[(1, 3)], 7⟩ (by decide)).2.2

/-! ## Receive top level: the read (loading) path of `FastArrayDeltaSerialize` -/

/-- The map-building loop of `ConditionalRebuildItemMap` on the reading side:
items with an unassigned id are skipped (benign: clients may add predicted
items without a replication id). -/
def buildItemMapLoop : List FItem → Nat → IntMap → IntMap
  | [], _, m => m
  | it :: rest, i, m =>
    if it.replicationID = INDEX_NONE then buildItemMapLoop rest (i + 1) m
    else buildItemMapLoop rest (i + 1) (mapAdd m it.replicationID (i : Int))

/-- `TFastArraySerializeHelper::ConditionalRebuildItemMap` on the reading
side: rebuild the id → index map from scratch when its size no longer agrees
with the item count. -/
def conditionalRebuildItemMap (items : List FItem) (s : FFastArraySerializer) :
    FFastArraySerializer :=
  if s.itemMap.length ≠ items.length then
    { s with itemMap := buildItemMapLoop items 0 [] }
  else s

/-- Result of the changed-elements loop of the read path. -/
structure ChangedLoopResult where
  items : List FItem
  ser : FFastArraySerializer
  changedIndices : List Int
  addedIndices : List Int
deriving DecidableEq, Repr

/-- The changed-elements loop of the read path: look each received id up in
the item map; unknown ids append a fresh default-constructed record seeded
with that id, known ids update in place.  Either way the record's
`MostRecentArrayReplicationKey` becomes the delta's array key and its local
`ReplicationKey` is incremented (so a client can re-serialize the array for
replay recording).  The per-record payload is decoded by the external
`NetSerializeCB` and does not touch these fields. -/
def readChangedLoop (arrayKey : Int) :
    List Int → List FItem → FFastArraySerializer → List Int → List Int →
    ChangedLoopResult
  | [], items, ser, ch, ad => ⟨items, ser, ch, ad⟩
  | elementID :: rest, items, ser, ch, ad =>
    match mapFind ser.itemMap elementID with
    | none =>
      let idx : Int := items.length
      let item : FItem := ⟨elementID, inc32 INDEX_NONE, arrayKey⟩
      readChangedLoop arrayKey rest (items ++ [item])
        { ser with itemMap := mapAdd ser.itemMap elementID idx } ch (ad ++ [idx])
    | some idx =>
      let items :=
        match items.get? idx.toNat with
        | some it =>
          items.set idx.toNat
            { it with
              replicationKey := inc32 it.replicationKey
              mostRecentArrayReplicationKey := arrayKey }
        | none => items
      readChangedLoop arrayKey rest items ser (ch ++ [idx]) ad

/-- Read `n` `int32` words (an exhausted reader yields zeros). -/
def readInts : Nat → List Int → List Int × List Int
  | 0, w => ([], w)
  | n + 1, w =>
    let r := readInt w
    let rest := readInts n r.2
    (r.1 :: rest.1, rest.2)

/-- Result of the read path. -/
structure ReadResult where
  ok : Bool
  items : List FItem
  ser : FFastArraySerializer
  trace : List REvent
deriving DecidableEq, Repr

/-- The read (loading) path of `FFastArraySerializer::FastArrayDeltaSerialize`:
conditionally rebuild the item map, decode and validate the header
(translating deleted ids to local indices), run the changed-elements loop,
then reconcile via `PostReceiveCleanup`.  The wire is the list of `int32`
words the path reads: the four header words, the deleted ids, then one id per
changed element (the per-element payload bits live between those ids on the
real wire but are consumed by the external serializer and carry nothing these
claims depend on). -/
def fastArrayDeltaSerialize_read (maxDel maxChg : Int) (internalAck : Bool)
    (items : List FItem) (ser : FFastArraySerializer) (wire : List Int) : ReadResult :=
  let ser := conditionalRebuildItemMap items ser
  match readDeltaHeader maxDel maxChg ser.itemMap wire with
  | none => ⟨false, items, ser, []⟩
  | some (hdr, w) =>
    let ids := (readInts hdr.numChanged.toNat w).1
    let c := readChangedLoop hdr.arrayReplicationKey ids items ser [] []
    let pc := postReceiveCleanup internalAck hdr c.changedIndices c.addedIndices
      c.items c.ser
    ⟨true, pc.items, pc.ser, pc.trace⟩

/-- C5 (amended): the configured maxima are checked on both sides but
enforced only on read.  The read path rejects — reader error, `false` return,
items untouched — any header whose deleted or changed count exceeds its
maximum, and accepts it otherwise; the write path emits the complete header
and every deleted id regardless of the bounds, merely raising its warning
flags exactly when a bound is exceeded. -/
theorem deltaHeader_bounds_spec (maxDel maxChg : Int) (m : IntMap)
    (hdr : FFastArraySerializerHeader) (internalAck : Bool) (items : List FItem)
    (ser : FFastArraySerializer) (key base nd nc : Int) (rest : List Int) :
    ((nd > maxDel ∨ nc > maxChg) →
      readDeltaHeader maxDel maxChg m (key :: base :: nd :: nc :: rest) = none) ∧
    (nd ≤ maxDel → nc ≤ maxChg →
      readDeltaHeader maxDel maxChg m (key :: base :: nd :: nc :: rest) =
        some (⟨key, base, nc, (readDeletedIDs m nd.toNat rest).1⟩,
          (readDeletedIDs m nd.toNat rest).2)) ∧
    ((nd > maxDel ∨ nc > maxChg) →
      (fastArrayDeltaSerialize_read maxDel maxChg internalAck items ser
          (key :: base :: nd :: nc :: rest)).ok = false ∧
      (fastArrayDeltaSerialize_read maxDel maxChg internalAck items ser
          (key :: base :: nd :: nc :: rest)).items = items) ∧
    ((writeDeltaHeader maxDel maxChg hdr).wire =
      hdr.arrayReplicationKey :: hdr.baseReplicationKey ::
        (hdr.deletedIndices.length : Int) :: hdr.numChanged :: hdr.deletedIndices) ∧
    ((writeDeltaHeader maxDel maxChg hdr).warnNumDeletes = true ↔
      (hdr.deletedIndices.length : Int) > maxDel) ∧
    ((writeDeltaHeader maxDel maxChg hdr).warnNumChanged = true ↔
      hdr.numChanged > maxChg) := by
  have hread : ∀ (mAny : IntMap), nd > maxDel ∨ nc > maxChg →
      readDeltaHeader maxDel maxChg mAny (key :: base :: nd :: nc :: rest) = none := by
    intro mAny h
    rcases h with h | h
    · simp only [readDeltaHeader, readInt]
      rw [if_pos h]
    · simp only [readDeltaHeader, readInt]
      by_cases hd : nd > maxDel
      · rw [if_pos hd]
      · rw [if_neg hd, if_pos h]
  refine ⟨hread m, ?_, ?_, rfl, by simp [writeDeltaHeader], by simp [writeDeltaHeader]⟩
  · intro h1 h2
    simp only [readDeltaHeader, readInt]
    rw [if_neg (not_lt.mpr h1), if_neg (not_lt.mpr h2)]
  · intro h
    simp only [fastArrayDeltaSerialize_read]
    rw [hread (conditionalRebuildItemMap items ser).itemMap h]
    exact ⟨rfl, rfl⟩

/-- C5 witness: at `maxDel = 2, maxChg = 2`, a header announcing three
deletions is rejected by the read path (items untouched), while the write
path emits a three-deletion header in full with only its warning flag set. -/
theorem deltaHeader_bounds_spec_witness :
    ((3 : Int) > 2 ∨ (0 : Int) > 2) ∧
    ((fastArrayDeltaSerialize_read 2 2 false [⟨1, 0, 0⟩]
        ⟨[(1, 0)], 1, 9, INDEX_NONE, INDEX_NONE, []⟩
        [9, 5, 3, 0, 7, 8, 11]).ok = false ∧
      (fastArrayDeltaSerialize_read 2 2 false [⟨1, 0, 0⟩]
        ⟨[(1, 0)], 1, 9, INDEX_NONE, INDEX_NONE, []⟩
        [9, 5, 3, 0, 7, 8, 11]).items = [⟨1, 0, 0⟩]) :=
  ⟨Or.inl (by norm_num),
    (deltaHeader_bounds_spec 2 2 [(1, 0)] ⟨9, 5, 0, [7, 8, 11]⟩ false [⟨1, 0, 0⟩]
      ⟨[(1, 0)], 1, 9, INDEX_NONE, INDEX_NONE, []⟩ 9 5 3 0 [7, 8, 11]).2.2.1
      (Or.inl (by norm_num))⟩

/-! ## Idempotence machinery: invariants of the item map and the read loops -/

section IdempotenceLemmas

theorem mapFind_isSome_mapAdd {m : IntMap} {id : Int} (k v : Int)
    (h : (mapFind m id).isSome) : (mapFind (mapAdd m k v) id).isSome := by
  by_cases hk : k = id
  · subst hk
    rw [mapFind_mapAdd_self]
    rfl
  · rw [mapFind_mapAdd_ne m k v id hk]
    exact h

theorem set_get?_self {α : Type} {l : List α} {n : Nat} {a : α}
    (h : l.get? n = some a) : l.set n a = l := by
  induction l generalizing n with
  | nil => simp at h
  | cons x xs ih =>
    cases n with
    | zero =>
      simp only [List.get?_cons_zero, Option.some.injEq] at h
      rw [h]
      simp
    | succ n =>
      simp only [List.get?_cons_succ] at h
      simp [List.set_cons_succ, ih h]

/-- Found entries of the rebuilt item map come from the accumulator or from
an actual item position. -/
theorem buildItemMapLoop_found :
    ∀ (items : List FItem) (i : Nat) (acc : IntMap) (id : Int) (j : Int),
      mapFind (buildItemMapLoop items i acc) id = some j →
      mapFind acc id = some j ∨
        ∃ (k : Nat) (it : FItem), items.get? k = some it ∧ it.replicationID = id ∧
          j = ((i + k : Nat) : Int) := by
  intro items
  induction items with
  | nil =>
    intro i acc id j h
    exact Or.inl h
  | cons item rest ih =>
    intro i acc id j h
    by_cases hid : item.replicationID = INDEX_NONE
    · simp only [buildItemMapLoop, if_pos hid] at h
      rcases ih (i + 1) acc id j h with h | ⟨k, it, h1, h2, h3⟩
      · exact Or.inl h
      · exact Or.inr ⟨k + 1, it, by simpa using h1, h2, by omega⟩
    · simp only [buildItemMapLoop, if_neg hid] at h
      rcases ih (i + 1) (mapAdd acc item.replicationID (i : Int)) id j h with
        h | ⟨k, it, h1, h2, h3⟩
      · by_cases heq : item.replicationID = id
        · subst heq
          rw [mapFind_mapAdd_self] at h
          exact Or.inr ⟨0, item, by simp, rfl, by simpa using h.symm⟩
        · rw [mapFind_mapAdd_ne acc _ _ _ heq] at h
          exact Or.inl h
      · exact Or.inr ⟨k + 1, it, by simpa using h1, h2, by omega⟩

/-- Every item with an assigned id is found in the rebuilt item map. -/
theorem buildItemMapLoop_mem :
    ∀ (items : List FItem) (i : Nat) (acc : IntMap) (it : FItem),
      it ∈ items → it.replicationID ≠ INDEX_NONE →
      (mapFind (buildItemMapLoop items i acc) it.replicationID).isSome := by
  intro items
  induction items with
  | nil =>
    intro i acc it h
    simp at h
  | cons item rest ih =>
    intro i acc it hmem hne
    rcases List.mem_cons.mp hmem with hmem | hmem
    · subst hmem
      simp only [buildItemMapLoop, if_neg hne]
      -- the head is added; later additions can only replace values, keeping
      -- the key present
      have : ∀ (l : List FItem) (i' : Nat) (m : IntMap),
          (mapFind m it.replicationID).isSome →
          (mapFind (buildItemMapLoop l i' m) it.replicationID).isSome := by
        intro l
        induction l with
        | nil => intro i' m h; exact h
        | cons x xs ihx =>
          intro i' m h
          by_cases hx : x.replicationID = INDEX_NONE
          · simp only [buildItemMapLoop, if_pos hx]
            exact ihx (i' + 1) m h
          · simp only [buildItemMapLoop, if_neg hx]
            exact ihx (i' + 1) _ (mapFind_isSome_mapAdd _ _ h)
      apply this
      rw [mapFind_mapAdd_self]
      rfl
    · by_cases hid : item.replicationID = INDEX_NONE
      · simp only [buildItemMapLoop, if_pos hid]
        exact ih (i + 1) acc it hmem hne
      · simp only [buildItemMapLoop, if_neg hid]
        exact ih (i + 1) _ it hmem hne

/-- `readDeletedIDs` on a wire that holds exactly the announced ids:
translate each through the map, dropping unknown ones. -/
theorem readDeletedIDs_exact (m : IntMap) :
    ∀ (ids rest : List Int),
      readDeletedIDs m ids.length (ids ++ rest) =
        (ids.filterMap (mapFind m), rest) := by
  intro ids
  induction ids with
  | nil => intro rest; simp [readDeletedIDs]
  | cons id ids ih =>
    intro rest
    simp only [List.length_cons, List.cons_append, readDeletedIDs, readInt]
    rw [ih rest]
    cases h : mapFind m id <;> simp [List.filterMap_cons, h]

/-- `readInts` on a wire that holds at least the requested words. -/
theorem readInts_exact :
    ∀ (ids rest : List Int), readInts ids.length (ids ++ rest) = (ids, rest) := by
  intro ids
  induction ids with
  | nil => intro rest; simp [readInts]
  | cons id ids ih =>
    intro rest
    simp only [List.length_cons, List.cons_append, readInts, readInt]
    rw [ih rest]

/-- A `filterMap` by an injective-on-success function of a duplicate-free
list is duplicate-free. -/
theorem filterMap_nodup_of_inj {α : Type} (f : α → Option Int) :
    ∀ (l : List α), l.Nodup →
      (∀ a b ja jb, a ∈ l → b ∈ l → f a = some ja → f b = some jb → ja = jb → a = b) →
      (l.filterMap f).Nodup := by
  intro l
  induction l with
  | nil => intro _ _; simp
  | cons x xs ih =>
    intro hnd hinj
    rw [List.filterMap_cons]
    cases hx : f x with
    | none =>
      exact ih (List.nodup_cons.mp hnd).2
        (fun a b ja jb ha hb hfa hfb he =>
          hinj a b ja jb (List.mem_cons_of_mem _ ha) (List.mem_cons_of_mem _ hb) hfa hfb he)
    | some jx =>
      rw [List.nodup_cons]
      constructor
      · intro hmem
        obtain ⟨a, ha, hfa⟩ := List.mem_filterMap.mp hmem
        have : a = x := hinj a x jx jx (List.mem_cons_of_mem _ ha) (by simp) hfa hx rfl
        subst this
        exact (List.nodup_cons.mp hnd).1 ha
      · exact ih (List.nodup_cons.mp hnd).2
          (fun a b ja jb ha hb hfa hfb he =>
            hinj a b ja jb (List.mem_cons_of_mem _ ha) (List.mem_cons_of_mem _ hb) hfa hfb he)

end IdempotenceLemmas

/-- Consistency of an id → index map with an item list: every found index is
in range and holds an item with that id, and every item with an assigned id
is found. -/
def ItemMapInv (items : List FItem) (m : IntMap) : Prop :=
  (∀ id j, mapFind m id = some j →
    0 ≤ j ∧ ∃ it, items.get? j.toNat = some it ∧ it.replicationID = id) ∧
  (∀ it ∈ items, it.replicationID ≠ INDEX_NONE → (mapFind m it.replicationID).isSome)

section IdempotenceLemmas2

theorem itemMapInv_build (items : List FItem) :
    ItemMapInv items (buildItemMapLoop items 0 []) := by
  constructor
  · intro id j hj
    rcases buildItemMapLoop_found items 0 [] id j hj with h | ⟨k, it, h1, h2, h3⟩
    · simp [mapFind] at h
    · subst h3
      refine ⟨by positivity, it, ?_, h2⟩
      simpa using h1
  · intro it hmem hne
    exact buildItemMapLoop_mem items 0 [] it hmem hne

theorem conditionalRebuildItemMap_inv (items : List FItem) (ser : FFastArraySerializer)
    (h : ser.itemMap.length = items.length → ItemMapInv items ser.itemMap) :
    ItemMapInv items (conditionalRebuildItemMap items ser).itemMap := by
  unfold conditionalRebuildItemMap
  by_cases hl : ser.itemMap.length ≠ items.length
  · rw [if_pos hl]
    exact itemMapInv_build items
  · rw [if_neg hl]
    exact h (not_ne_iff.mp hl)

theorem conditionalRebuildItemMap_of_eq (items : List FItem) (ser : FFastArraySerializer)
    (h : ser.itemMap = buildItemMapLoop items 0 []) :
    (conditionalRebuildItemMap items ser).itemMap = buildItemMapLoop items 0 [] := by
  unfold conditionalRebuildItemMap
  by_cases hl : ser.itemMap.length ≠ items.length
  · rw [if_pos hl]
  · rw [if_neg hl]
    exact h

/-- Item-map consistency is preserved by the in-place update of a changed
record. -/
theorem itemMapInv_set (items : List FItem) (m : IntMap) (hinv : ItemMapInv items m)
    (idx : Int) (it : FItem) (arrayKey : Int)
    (hit : items.get? idx.toNat = some it) :
    ItemMapInv (items.set idx.toNat { it with
      replicationKey := inc32 it.replicationKey
      mostRecentArrayReplicationKey := arrayKey }) m := by
  have hlt : idx.toNat < items.length := by
    rcases List.get?_eq_some.mp hit with ⟨hl, _⟩
    exact hl
  constructor
  · intro id j hj
    obtain ⟨hj0, it', hit', hid'⟩ := hinv.1 id j hj
    refine ⟨hj0, ?_⟩
    by_cases hjj : j.toNat = idx.toNat
    · have hii : it' = it := by
        rw [hjj, hit] at hit'
        exact (Option.some.inj hit').symm
      refine ⟨{ it with
          replicationKey := inc32 it.replicationKey
          mostRecentArrayReplicationKey := arrayKey }, ?_, ?_⟩
      · rw [hjj, List.get?_set_eq]
        simp [List.get?_eq_getElem?, List.getElem?_eq_getElem hlt]
      · rw [← hid', hii]
    · refine ⟨it', ?_, hid'⟩
      rw [List.get?_set_ne _ _ fun hc => hjj hc.symm]
      exact hit'
  · intro it' hmem hne
    rcases List.mem_or_eq_of_mem_set hmem with hmem | hmem
    · exact hinv.2 it' hmem hne
    · subst hmem
      exact hinv.2 it (List.get?_mem hit) (by simpa using hne)

/-- Item-map consistency is preserved by appending a freshly received
record and registering it in the map. -/
theorem itemMapInv_append (items : List FItem) (m : IntMap) (hinv : ItemMapInv items m)
    (c arrayKey : Int) :
    ItemMapInv (items ++ [⟨c, inc32 INDEX_NONE, arrayKey⟩])
      (mapAdd m c (items.length : Int)) := by
  constructor
  · intro id j hj
    by_cases heq : c = id
    · subst heq
      rw [mapFind_mapAdd_self] at hj
      have hjv : j = (items.length : Int) := (Option.some.inj hj).symm
      subst hjv
      refine ⟨by positivity, ⟨c, inc32 INDEX_NONE, arrayKey⟩, ?_, rfl⟩
      simpa using List.get?_concat_length items ⟨c, inc32 INDEX_NONE, arrayKey⟩
    · rw [mapFind_mapAdd_ne _ _ _ _ heq] at hj
      obtain ⟨hj0, it', hit', hid'⟩ := hinv.1 id j hj
      refine ⟨hj0, it', ?_, hid'⟩
      rw [List.get?_append]
      · exact hit'
      · rcases List.get?_eq_some.mp hit' with ⟨hl, _⟩
        exact hl
  · intro it' hmem hne
    rcases List.mem_append.mp hmem with hmem | hmem
    · exact mapFind_isSome_mapAdd _ _ (hinv.2 it' hmem hne)
    · simp only [List.mem_singleton] at hmem
      subst hmem
      simp only
      rw [mapFind_mapAdd_self]
      rfl

/-- The changed-elements loop preserves item-map consistency. -/
theorem readChangedLoop_inv (arrayKey : Int) :
    ∀ (ids : List Int) (items : List FItem) (ser : FFastArraySerializer)
      (ch ad : List Int),
      ItemMapInv items ser.itemMap →
      ItemMapInv (readChangedLoop arrayKey ids items ser ch ad).items
        (readChangedLoop arrayKey ids items ser ch ad).ser.itemMap := by
  intro ids
  induction ids with
  | nil =>
    intro items ser ch ad h
    exact h
  | cons c rest ih =>
    intro items ser ch ad hinv
    cases hf : mapFind ser.itemMap c with
    | some idx =>
      obtain ⟨h0, it, hit, hid⟩ := hinv.1 c idx hf
      simp only [readChangedLoop, hf, hit]
      exact ih _ _ _ _ (itemMapInv_set items ser.itemMap hinv idx it arrayKey hit)
    | none =>
      simp only [readChangedLoop, hf]
      exact ih _ _ _ _ (itemMapInv_append items ser.itemMap hinv c arrayKey)

/-- The replication-id column of the items after the changed-elements loop:
the original ids in place, followed by the freshly appended ids — a
duplicate-free selection of received ids that were absent from the map. -/
theorem readChangedLoop_ids (arrayKey : Int) :
    ∀ (ids : List Int) (items : List FItem) (ser : FFastArraySerializer)
      (ch ad : List Int),
      ∃ newIds,
        (readChangedLoop arrayKey ids items ser ch ad).items.map FItem.replicationID =
          items.map FItem.replicationID ++ newIds ∧
        (∀ c ∈ newIds, c ∈ ids) ∧
        newIds.Nodup ∧
        (∀ c ∈ newIds, mapFind ser.itemMap c = none) := by
  intro ids
  induction ids with
  | nil =>
    intro items ser ch ad
    exact ⟨[], by simp [readChangedLoop], by simp, by simp, by simp⟩
  | cons c rest ih =>
    intro items ser ch ad
    cases hf : mapFind ser.itemMap c with
    | some idx =>
      cases hit : items.get? idx.toNat with
      | some it =>
        have hmap : (items.set idx.toNat { it with
            replicationKey := inc32 it.replicationKey
            mostRecentArrayReplicationKey := arrayKey }).map FItem.replicationID =
            items.map FItem.replicationID := by
          rw [List.map_set]
          apply set_get?_self
          rw [List.get?_map, hit]
          rfl
        obtain ⟨newIds, h1, h2, h3, h4⟩ := ih
          (items.set idx.toNat { it with
            replicationKey := inc32 it.replicationKey
            mostRecentArrayReplicationKey := arrayKey }) ser (ch ++ [idx]) ad
        refine ⟨newIds, ?_, ?_, h3, h4⟩
        · simp only [readChangedLoop, hf, hit]
          rw [h1, hmap]
        · intro x hx
          exact List.mem_cons_of_mem _ (h2 x hx)
      | none =>
        obtain ⟨newIds, h1, h2, h3, h4⟩ := ih items ser (ch ++ [idx]) ad
        refine ⟨newIds, ?_, ?_, h3, h4⟩
        · simp only [readChangedLoop, hf, hit]
          exact h1
        · intro x hx
          exact List.mem_cons_of_mem _ (h2 x hx)
    | none =>
      obtain ⟨newIds, h1, h2, h3, h4⟩ := ih
        (items ++ [⟨c, inc32 INDEX_NONE, arrayKey⟩])
        { ser with itemMap := mapAdd ser.itemMap c (items.length : Int) } ch
        (ad ++ [(items.length : Int)])
      have hcnot : c ∉ newIds := by
        intro hc
        have := h4 c hc
        simp only at this
        rw [mapFind_mapAdd_self] at this
        exact Option.noConfusion this
      refine ⟨c :: newIds, ?_, ?_, ?_, ?_⟩
      · simp only [readChangedLoop, hf]
        rw [h1]
        simp
      · intro x hx
        rcases List.mem_cons.mp hx with hx | hx
        · rw [hx]
          simp
        · exact List.mem_cons_of_mem _ (h2 x hx)
      · exact List.nodup_cons.mpr ⟨hcnot, h3⟩
      · intro x hx
        rcases List.mem_cons.mp hx with hx | hx
        · rw [hx]
          exact hf
        · have := h4 x hx
          simp only at this
          rwa [mapFind_mapAdd_ne _ _ _ _ (fun hc => hcnot (by rw [hc]; exact hx))] at this

/-- The loop never loses a record that already carries the delta's array
key: once some position holds a record with a given id and the new array
key, some position still does after the loop. -/
theorem readChangedLoop_keeps_touched (arrayKey : Int) :
    ∀ (ids : List Int) (items : List FItem) (ser : FFastArraySerializer)
      (ch ad : List Int) (c : Int),
      (∃ (j : Nat) (it : FItem), items.get? j = some it ∧ it.replicationID = c ∧
        it.mostRecentArrayReplicationKey = arrayKey) →
      ∃ (j : Nat) (it : FItem),
        (readChangedLoop arrayKey ids items ser ch ad).items.get? j = some it ∧
        it.replicationID = c ∧ it.mostRecentArrayReplicationKey = arrayKey := by
  intro ids
  induction ids with
  | nil =>
    intro items ser ch ad c h
    exact h
  | cons d rest ih =>
    intro items ser ch ad c h
    obtain ⟨j, it, hj, hjc, hjk⟩ := h
    cases hf : mapFind ser.itemMap d with
    | some idx =>
      cases hit : items.get? idx.toNat with
      | some it₂ =>
        simp only [readChangedLoop, hf, hit]
        apply ih
        by_cases hjj : j = idx.toNat
        · have hii : it = it₂ := by
            rw [hjj, hit] at hj
            exact (Option.some.inj hj).symm
          refine ⟨idx.toNat, { it₂ with
              replicationKey := inc32 it₂.replicationKey
              mostRecentArrayReplicationKey := arrayKey }, ?_, ?_, rfl⟩
          · rw [List.get?_set_eq]
            have hlt : idx.toNat < items.length := by
              rcases List.get?_eq_some.mp hit with ⟨hl, _⟩
              exact hl
            simp [List.get?_eq_getElem?, List.getElem?_eq_getElem hlt]
          · rw [← hii]
            exact hjc
        · refine ⟨j, it, ?_, hjc, hjk⟩
          rw [List.get?_set_ne _ _ fun hc => hjj hc.symm]
          exact hj
      | none =>
        simp only [readChangedLoop, hf, hit]
        exact ih _ _ _ _ c ⟨j, it, hj, hjc, hjk⟩
    | none =>
      simp only [readChangedLoop, hf]
      apply ih
      refine ⟨j, it, ?_, hjc, hjk⟩
      rw [List.get?_append]
      · exact hj
      · rcases List.get?_eq_some.mp hj with ⟨hl, _⟩
        exact hl

/-- Every received changed id ends the loop at some position holding a
record with that id whose `MostRecentArrayReplicationKey` is the delta's
array key. -/
theorem readChangedLoop_touched (arrayKey : Int) :
    ∀ (ids : List Int) (items : List FItem) (ser : FFastArraySerializer)
      (ch ad : List Int),
      ItemMapInv items ser.itemMap →
      ∀ c ∈ ids,
        ∃ (j : Nat) (it : FItem),
          (readChangedLoop arrayKey ids items ser ch ad).items.get? j = some it ∧
          it.replicationID = c ∧ it.mostRecentArrayReplicationKey = arrayKey := by
  intro ids
  induction ids with
  | nil =>
    intro items ser ch ad _ c hc
    simp at hc
  | cons d rest ih =>
    intro items ser ch ad hinv c hc
    rcases List.mem_cons.mp hc with hc | hc
    · subst hc
      cases hf : mapFind ser.itemMap c with
      | some idx =>
        obtain ⟨h0, it, hit, hid⟩ := hinv.1 c idx hf
        have hlt : idx.toNat < items.length := by
          rcases List.get?_eq_some.mp hit with ⟨hl, _⟩
          exact hl
        simp only [readChangedLoop, hf, hit]
        apply readChangedLoop_keeps_touched
        refine ⟨idx.toNat, { it with
            replicationKey := inc32 it.replicationKey
            mostRecentArrayReplicationKey := arrayKey }, ?_, hid, rfl⟩
        rw [List.get?_set_eq]
        simp [List.get?_eq_getElem?, List.getElem?_eq_getElem hlt]
      | none =>
        simp only [readChangedLoop, hf]
        apply readChangedLoop_keeps_touched
        refine ⟨items.length, ⟨c, inc32 INDEX_NONE, arrayKey⟩, ?_, rfl, rfl⟩
        exact List.get?_concat_length items _
    · cases hf : mapFind ser.itemMap d with
      | some idx =>
        obtain ⟨h0, it, hit, hid⟩ := hinv.1 d idx hf
        simp only [readChangedLoop, hf, hit]
        exact ih _ _ _ _ (itemMapInv_set items ser.itemMap hinv idx it arrayKey hit) c hc
      | none =>
        simp only [readChangedLoop, hf]
        exact ih _ _ _ _ (itemMapInv_append items ser.itemMap hinv d arrayKey) c hc

/-- After the loop, every position either carries the delta's array key or
is the untouched original record (same id, same most-recent key). -/
theorem readChangedLoop_mrk (arrayKey : Int) :
    ∀ (ids : List Int) (items : List FItem) (ser : FFastArraySerializer)
      (ch ad : List Int) (j : Nat) (it' : FItem),
      (readChangedLoop arrayKey ids items ser ch ad).items.get? j = some it' →
      it'.mostRecentArrayReplicationKey = arrayKey ∨
        ∃ it0, items.get? j = some it0 ∧ it0.replicationID = it'.replicationID ∧
          it0.mostRecentArrayReplicationKey = it'.mostRecentArrayReplicationKey := by
  intro ids
  induction ids with
  | nil =>
    intro items ser ch ad j it' h
    exact Or.inr ⟨it', h, rfl, rfl⟩
  | cons d rest ih =>
    intro items ser ch ad j it' h
    cases hf : mapFind ser.itemMap d with
    | some idx =>
      cases hit : items.get? idx.toNat with
      | some it₂ =>
        simp only [readChangedLoop, hf, hit] at h
        rcases ih _ _ _ _ j it' h with hk | ⟨it0, h0, hid0, hmrk0⟩
        · exact Or.inl hk
        · by_cases hjj : j = idx.toNat
          · rw [hjj, List.get?_set_eq] at h0
            have hlt : idx.toNat < items.length := by
              rcases List.get?_eq_some.mp hit with ⟨hl, _⟩
              exact hl
            simp [List.get?_eq_getElem?, List.getElem?_eq_getElem hlt] at h0
            left
            rw [← hmrk0, ← h0]
          · rw [List.get?_set_ne _ _ fun hc => hjj hc.symm] at h0
            exact Or.inr ⟨it0, h0, hid0, hmrk0⟩
      | none =>
        simp only [readChangedLoop, hf, hit] at h
        exact ih _ _ _ _ j it' h
    | none =>
      simp only [readChangedLoop, hf] at h
      rcases ih _ _ _ _ j it' h with hk | ⟨it0, h0, hid0, hmrk0⟩
      · exact Or.inl hk
      · by_cases hjl : j < items.length
        · rw [List.get?_append hjl] at h0
          exact Or.inr ⟨it0, h0, hid0, hmrk0⟩
        · have hj : j = items.length := by
            rcases List.get?_eq_some.mp h0 with ⟨hl, _⟩
            simp at hl
            omega
          rw [hj, List.get?_concat_length] at h0
          left
          rw [← hmrk0, ← Option.some.inj h0]

/-- When every received id is already in the map, the loop appends nothing
and leaves both the id column and the serializer untouched. -/
theorem readChangedLoop_noappend (arrayKey : Int) :
    ∀ (ids : List Int) (items : List FItem) (ser : FFastArraySerializer)
      (ch ad : List Int),
      (∀ c ∈ ids, (mapFind ser.itemMap c).isSome) →
      (readChangedLoop arrayKey ids items ser ch ad).items.map FItem.replicationID =
        items.map FItem.replicationID ∧
      (readChangedLoop arrayKey ids items ser ch ad).ser = ser := by
  intro ids
  induction ids with
  | nil =>
    intro items ser ch ad _
    exact ⟨rfl, rfl⟩
  | cons d rest ih =>
    intro items ser ch ad hall
    cases hf : mapFind ser.itemMap d with
    | some idx =>
      cases hit : items.get? idx.toNat with
      | some it₂ =>
        simp only [readChangedLoop, hf, hit]
        have hmap : (items.set idx.toNat { it₂ with
            replicationKey := inc32 it₂.replicationKey
            mostRecentArrayReplicationKey := arrayKey }).map FItem.replicationID =
            items.map FItem.replicationID := by
          rw [List.map_set]
          apply set_get?_self
          rw [List.get?_map, hit]
          rfl
        obtain ⟨ha, hb⟩ := ih _ ser (ch ++ [idx]) ad
          (fun c hc => hall c (List.mem_cons_of_mem _ hc))
        exact ⟨by rw [ha, hmap], hb⟩
      | none =>
        simp only [readChangedLoop, hf, hit]
        exact ih _ ser (ch ++ [idx]) ad (fun c hc => hall c (List.mem_cons_of_mem _ hc))
    | none =>
      have := hall d (by simp)
      rw [hf] at this
      exact absurd this (by simp)

/-- Soundness of the implicit-delete scan: everything it reports was either
already in the deleted list or is the index of a record in the key range. -/
theorem implicitScanLoop_sound (hdr : FFastArraySerializerHeader) :
    ∀ (items : List FItem) (idx : Int) (del : List Int) (e : Int),
      e ∈ implicitScanLoop hdr items idx del →
      e ∈ del ∨ ∃ it, items.get? (e - idx).toNat = some it ∧
        it.mostRecentArrayReplicationKey < hdr.arrayReplicationKey ∧
        it.mostRecentArrayReplicationKey > hdr.baseReplicationKey := by
  intro items
  induction items with
  | nil =>
    intro idx del e he
    simp only [implicitScanLoop] at he
    exact Or.inl he
  | cons item rest ih =>
    intro idx del e he
    have hstep : ∀ (del' : List Int), e ∈ implicitScanLoop hdr rest (idx + 1) del' →
        e ∉ del' →
        ∃ it, (item :: rest).get? (e - idx).toNat = some it ∧
          it.mostRecentArrayReplicationKey < hdr.arrayReplicationKey ∧
          it.mostRecentArrayReplicationKey > hdr.baseReplicationKey := by
      intro del' he' hnd
      have hbound : idx + 1 ≤ e := by
        obtain ⟨extra, h1, h2, _⟩ := implicitScanLoop_spec hdr rest (idx + 1) del'
        rw [h1] at he'
        rcases List.mem_append.mp he' with hx | hx
        · exact absurd hx hnd
        · exact (h2 e hx).1
      rcases ih (idx + 1) del' e he' with hx | ⟨it, hit, hc1, hc2⟩
      · exact absurd hx hnd
      · refine ⟨it, ?_, hc1, hc2⟩
        have harith : (e - idx).toNat = (e - (idx + 1)).toNat + 1 := by omega
        rw [harith]
        simpa using hit
    by_cases hcond : item.mostRecentArrayReplicationKey < hdr.arrayReplicationKey ∧
        item.mostRecentArrayReplicationKey > hdr.baseReplicationKey
    · by_cases hmem : idx ∈ del
      · simp only [implicitScanLoop, if_pos hcond, if_pos hmem] at he
        by_cases hin : e ∈ del
        · exact Or.inl hin
        · exact Or.inr (hstep del he hin)
      · simp only [implicitScanLoop, if_pos hcond, if_neg hmem] at he
        by_cases hin : e ∈ del ++ [idx]
        · rcases List.mem_append.mp hin with hin | hin
          · exact Or.inl hin
          · simp only [List.mem_singleton] at hin
            subst hin
            refine Or.inr ⟨item, ?_, hcond.1, hcond.2⟩
            simp
        · exact Or.inr (hstep (del ++ [idx]) he hin)
    · simp only [implicitScanLoop, if_neg hcond] at he
      by_cases hin : e ∈ del
      · exact Or.inl hin
      · exact Or.inr (hstep del he hin)

/-- When no record is in the key range, the implicit-delete scan reports
nothing new. -/
theorem implicitScanLoop_nocond (hdr : FFastArraySerializerHeader) :
    ∀ (items : List FItem) (idx : Int) (del : List Int),
      (∀ (j : Nat) (it : FItem), items.get? j = some it →
        ¬(it.mostRecentArrayReplicationKey < hdr.arrayReplicationKey ∧
          it.mostRecentArrayReplicationKey > hdr.baseReplicationKey)) →
      implicitScanLoop hdr items idx del = del := by
  intro items
  induction items with
  | nil =>
    intro idx del _
    rfl
  | cons item rest ih =>
    intro idx del h
    have hcond := h 0 item (by simp)
    simp only [implicitScanLoop, if_neg hcond]
    exact ih (idx + 1) del fun j it hj => h (j + 1) it (by simpa using hj)

theorem removeGuidRefs_itemMap (items : List FItem) :
    ∀ (deleted : List Int) (s : FFastArraySerializer),
      (removeGuidRefs items s deleted).itemMap = s.itemMap := by
  intro deleted
  induction deleted with
  | nil => intro s; rfl
  | cons d rest ih =>
    intro s
    simp only [removeGuidRefs, List.foldl_cons]
    by_cases hd : 0 ≤ d ∧ d < (items.length : Int)
    · rw [if_pos hd]
      exact ih _
    · rw [if_neg hd]
      exact ih _

/-- The shape of `PostReceiveCleanup`'s result: the final deleted set, the
final items (always expressible through the removal loop) and the item map. -/
theorem postReceiveCleanup_shape (internalAck : Bool) (hdr : FFastArraySerializerHeader)
    (ch ad : List Int) (items : List FItem) (ser : FFastArraySerializer) :
    ((postReceiveCleanup internalAck hdr ch ad items ser).deletedIndices =
      (if internalAck then hdr.deletedIndices
       else implicitScanLoop hdr items 0 hdr.deletedIndices)) ∧
    ((postReceiveCleanup internalAck hdr ch ad items ser).items =
      (removeLoopEvents items (sortedDescending (if internalAck then hdr.deletedIndices
        else implicitScanLoop hdr items 0 hdr.deletedIndices))).1) ∧
    ((postReceiveCleanup internalAck hdr ch ad items ser).ser.itemMap =
      if (if internalAck then hdr.deletedIndices
          else implicitScanLoop hdr items 0 hdr.deletedIndices).length > 0
      then [] else ser.itemMap) := by
  set deleted := (if internalAck then hdr.deletedIndices
    else implicitScanLoop hdr items 0 hdr.deletedIndices) with hdel
  by_cases hd : deleted.length > 0
  · have hres : postReceiveCleanup internalAck hdr ch ad items ser =
        { items := (removeLoopEvents items (sortedDescending deleted)).1
          ser := { removeGuidRefs items
              (if deleted.length > 0 ∨ hdr.numChanged > 0 then
                incrementArrayReplicationKey ser else ser) deleted with itemMap := [] }
          deletedIndices := deleted
          trace := (((deleted.filter fun d =>
                decide (0 ≤ d ∧ d < (items.length : Int))).map REvent.preRemoveItem)
              ++ [REvent.preRemoveBatch deleted ((items.length : Int) - deleted.length)]
              ++ (ad.map REvent.postAddItem)
              ++ [REvent.postAddBatch ad ((items.length : Int) - deleted.length)]
              ++ (ch.map REvent.postChangeItem)
              ++ [REvent.postChangeBatch ch ((items.length : Int) - deleted.length)])
              ++ (removeLoopEvents items (sortedDescending deleted)).2
              ++ [REvent.itemMapCleared] } := by
      simp only [postReceiveCleanup]
      rw [← hdel, if_pos hd]
    rw [hres, if_pos hd]
    exact ⟨rfl, rfl, rfl⟩
  · have hdel0 : deleted = [] := List.eq_nil_of_length_eq_zero (by omega)
    have hres : postReceiveCleanup internalAck hdr ch ad items ser =
        { items := items
          ser := removeGuidRefs items
              (if deleted.length > 0 ∨ hdr.numChanged > 0 then
                incrementArrayReplicationKey ser else ser) deleted
          deletedIndices := deleted
          trace := ((deleted.filter fun d =>
                decide (0 ≤ d ∧ d < (items.length : Int))).map REvent.preRemoveItem)
              ++ [REvent.preRemoveBatch deleted ((items.length : Int) - deleted.length)]
              ++ (ad.map REvent.postAddItem)
              ++ [REvent.postAddBatch ad ((items.length : Int) - deleted.length)]
              ++ (ch.map REvent.postChangeItem)
              ++ [REvent.postChangeBatch ch ((items.length : Int) - deleted.length)] } := by
      simp only [postReceiveCleanup]
      rw [← hdel, if_neg hd]
    rw [hres, if_neg hd]
    refine ⟨rfl, ?_, ?_⟩
    · rw [hdel0]
      simp [sortedDescending, List.insertionSort, removeLoopEvents]
    · rw [removeGuidRefs_itemMap]
      by_cases hb : deleted.length > 0 ∨ hdr.numChanged > 0
      · rw [if_pos hb]
        rfl
      · rw [if_neg hb]

theorem readInts_self (l : List Int) : readInts l.length l = (l, []) := by
  simpa using readInts_exact l []

/-- Unfolding the read path on a well-formed wire within the configured
bounds: the header decodes, the deleted ids translate through the (possibly
rebuilt) item map, the changed loop runs on the received ids, and the result
is the reconciliation's outcome. -/
theorem fastArrayDeltaSerialize_read_unfold (maxDel maxChg : Int) (internalAck : Bool)
    (items : List FItem) (ser : FFastArraySerializer) (key base : Int)
    (deletedIDs changedIDs : List Int)
    (hdlim : (deletedIDs.length : Int) ≤ maxDel)
    (hclim : (changedIDs.length : Int) ≤ maxChg) :
    fastArrayDeltaSerialize_read maxDel maxChg internalAck items ser
      (key :: base :: (deletedIDs.length : Int) :: (changedIDs.length : Int) ::
        (deletedIDs ++ changedIDs)) =
    ⟨true,
      (postReceiveCleanup internalAck
        ⟨key, base, (changedIDs.length : Int),
          deletedIDs.filterMap (mapFind (conditionalRebuildItemMap items ser).itemMap)⟩
        (readChangedLoop key changedIDs items
          (conditionalRebuildItemMap items ser) [] []).changedIndices
        (readChangedLoop key changedIDs items
          (conditionalRebuildItemMap items ser) [] []).addedIndices
        (readChangedLoop key changedIDs items
          (conditionalRebuildItemMap items ser) [] []).items
        (readChangedLoop key changedIDs items
          (conditionalRebuildItemMap items ser) [] []).ser).items,
      (postReceiveCleanup internalAck
        ⟨key, base, (changedIDs.length : Int),
          deletedIDs.filterMap (mapFind (conditionalRebuildItemMap items ser).itemMap)⟩
        (readChangedLoop key changedIDs items
          (conditionalRebuildItemMap items ser) [] []).changedIndices
        (readChangedLoop key changedIDs items
          (conditionalRebuildItemMap items ser) [] []).addedIndices
        (readChangedLoop key changedIDs items
          (conditionalRebuildItemMap items ser) [] []).items
        (readChangedLoop key changedIDs items
          (conditionalRebuildItemMap items ser) [] []).ser).ser,
      (postReceiveCleanup internalAck
        ⟨key, base, (changedIDs.length : Int),
          deletedIDs.filterMap (mapFind (conditionalRebuildItemMap items ser).itemMap)⟩
        (readChangedLoop key changedIDs items
          (conditionalRebuildItemMap items ser) [] []).changedIndices
        (readChangedLoop key changedIDs items
          (conditionalRebuildItemMap items ser) [] []).addedIndices
        (readChangedLoop key changedIDs items
          (conditionalRebuildItemMap items ser) [] []).items
        (readChangedLoop key changedIDs items
          (conditionalRebuildItemMap items ser) [] []).ser).trace⟩ := by
  have hhdr : readDeltaHeader maxDel maxChg (conditionalRebuildItemMap items ser).itemMap
      (key :: base :: (deletedIDs.length : Int) :: (changedIDs.length : Int) ::
        (deletedIDs ++ changedIDs)) =
      some (⟨key, base, (changedIDs.length : Int),
        deletedIDs.filterMap (mapFind (conditionalRebuildItemMap items ser).itemMap)⟩,
        changedIDs) := by
    simp only [readDeltaHeader, readInt]
    rw [if_neg (not_lt.mpr hdlim), if_neg (not_lt.mpr hclim), Int.toNat_natCast,
      readDeletedIDs_exact]
  simp only [fastArrayDeltaSerialize_read]
  rw [hhdr]
  simp only [Int.toNat_natCast, readInts_self]

/-- A received delta that targets only ids already mirrored by the collection
(changed entries present, deleted entries absent, and no record left in the
implicit-delete key range) leaves the replication-id column untouched. -/
theorem fastArrayDeltaSerialize_read_noop (maxDel maxChg : Int) (internalAck : Bool)
    (items : List FItem) (ser : FFastArraySerializer) (key base : Int)
    (deletedIDs changedIDs : List Int)
    (hinvpre : ser.itemMap.length = items.length → ItemMapInv items ser.itemMap)
    (habsent : ∀ d ∈ deletedIDs, d ∉ items.map FItem.replicationID)
    (hpresent : ∀ c ∈ changedIDs, c ∈ items.map FItem.replicationID)
    (hchid : ∀ c ∈ changedIDs, c ≠ INDEX_NONE)
    (hmrk : internalAck = false →
      ∀ (j : Nat) (it : FItem), items.get? j = some it →
        ¬(it.mostRecentArrayReplicationKey < key ∧
          it.mostRecentArrayReplicationKey > base))
    (hdlim : (deletedIDs.length : Int) ≤ maxDel)
    (hclim : (changedIDs.length : Int) ≤ maxChg) :
    (fastArrayDeltaSerialize_read maxDel maxChg internalAck items ser
      (key :: base :: (deletedIDs.length : Int) :: (changedIDs.length : Int) ::
        (deletedIDs ++ changedIDs))).items.map FItem.replicationID =
    items.map FItem.replicationID := by
  have hinv : ItemMapInv items (conditionalRebuildItemMap items ser).itemMap :=
    conditionalRebuildItemMap_inv items ser hinvpre
  rw [fastArrayDeltaSerialize_read_unfold maxDel maxChg internalAck items ser key base
    deletedIDs changedIDs hdlim hclim]
  set ser₀ := conditionalRebuildItemMap items ser with hser₀
  -- deleted ids translate to nothing: none of them is in the collection
  have hexpl : deletedIDs.filterMap (mapFind ser₀.itemMap) = [] := by
    apply List.filterMap_eq_nil.mpr
    intro d hd
    cases hfd : mapFind ser₀.itemMap d with
    | none => rfl
    | some j =>
      obtain ⟨_, it, hit, hid⟩ := hinv.1 d j hfd
      exact absurd (List.mem_map.mpr ⟨it, List.get?_mem hit, hid⟩) (habsent d hd)
  -- the changed loop appends nothing
  have hfound : ∀ c ∈ changedIDs, (mapFind ser₀.itemMap c).isSome := by
    intro c hc
    obtain ⟨it, hmem, hid⟩ := List.mem_map.mp (hpresent c hc)
    exact hid ▸ hinv.2 it hmem (hid.symm ▸ hchid c hc)
  obtain ⟨hC1, hC2⟩ := readChangedLoop_noappend key changedIDs items ser₀ [] [] hfound
  set C := readChangedLoop key changedIDs items ser₀ [] [] with hC
  -- the reconciliation deletes nothing
  set hdr : FFastArraySerializerHeader := ⟨key, base, (changedIDs.length : Int),
    deletedIDs.filterMap (mapFind ser₀.itemMap)⟩ with hhdr
  have hscan : (if internalAck then hdr.deletedIndices
      else implicitScanLoop hdr C.items 0 hdr.deletedIndices) = [] := by
    by_cases hack : internalAck
    · rw [if_pos hack]
      simp [hhdr, hexpl]
    · rw [if_neg hack]
      have : implicitScanLoop hdr C.items 0 hdr.deletedIndices = hdr.deletedIndices := by
        apply implicitScanLoop_nocond
        intro j it' hj hcond
        rcases readChangedLoop_mrk key changedIDs items ser₀ [] [] j it' hj with
          hk | ⟨it0, h0, _, hmrk0⟩
        · simp only [hhdr] at hcond
          rw [hk] at hcond
          exact absurd hcond.1 (lt_irrefl key)
        · simp only [hhdr] at hcond
          rw [← hmrk0] at hcond
          exact hmrk (Bool.not_eq_true _ ▸ (by simpa using hack)) j it0 h0 hcond
      rw [this]
      simp [hhdr, hexpl]
  obtain ⟨_, hitems, _⟩ := postReceiveCleanup_shape internalAck hdr C.changedIndices
    C.addedIndices C.items C.ser
  simp only at hitems ⊢
  rw [hitems, hscan]
  have : (removeLoopEvents C.items (sortedDescending [])).1 = C.items := by
    simp [sortedDescending, List.insertionSort, removeLoopEvents]
  rw [this, hC1]

/-- What one application of a well-formed delta guarantees about the
resulting collection: the delta's deleted ids are gone, its changed ids are
present, no surviving record sits in the implicit-delete key range (on
unreliable channels), and the id → index map stays consistent whenever its
size matches. -/
theorem fastArrayDeltaSerialize_read_round_facts (maxDel maxChg : Int)
    (internalAck : Bool) (items : List FItem) (ser : FFastArraySerializer)
    (key base : Int) (deletedIDs changedIDs : List Int)
    (hinv : ItemMapInv items (conditionalRebuildItemMap items ser).itemMap)
    (hids : (items.map FItem.replicationID).Nodup)
    (hnoneg : ∀ it ∈ items, it.replicationID ≠ INDEX_NONE)
    (hdelN : deletedIDs.Nodup)
    (hdisj : ∀ c ∈ changedIDs, c ∉ deletedIDs)
    (hchid : ∀ c ∈ changedIDs, c ≠ INDEX_NONE)
    (hdlim : (deletedIDs.length : Int) ≤ maxDel)
    (hclim : (changedIDs.length : Int) ≤ maxChg) :
    (∀ d ∈ deletedIDs,
      d ∉ (fastArrayDeltaSerialize_read maxDel maxChg internalAck items ser
        (key :: base :: (deletedIDs.length : Int) :: (changedIDs.length : Int) ::
          (deletedIDs ++ changedIDs))).items.map FItem.replicationID) ∧
    (∀ c ∈ changedIDs,
      c ∈ (fastArrayDeltaSerialize_read maxDel maxChg internalAck items ser
        (key :: base :: (deletedIDs.length : Int) :: (changedIDs.length : Int) ::
          (deletedIDs ++ changedIDs))).items.map FItem.replicationID) ∧
    (internalAck = false →
      ∀ (j : Nat) (it : FItem),
        (fastArrayDeltaSerialize_read maxDel maxChg internalAck items ser
          (key :: base :: (deletedIDs.length : Int) :: (changedIDs.length : Int) ::
            (deletedIDs ++ changedIDs))).items.get? j = some it →
        ¬(it.mostRecentArrayReplicationKey < key ∧
          it.mostRecentArrayReplicationKey > base)) ∧
    ((fastArrayDeltaSerialize_read maxDel maxChg internalAck items ser
        (key :: base :: (deletedIDs.length : Int) :: (changedIDs.length : Int) ::
          (deletedIDs ++ changedIDs))).ser.itemMap.length =
      (fastArrayDeltaSerialize_read maxDel maxChg internalAck items ser
        (key :: base :: (deletedIDs.length : Int) :: (changedIDs.length : Int) ::
          (deletedIDs ++ changedIDs))).items.length →
      ItemMapInv
        (fastArrayDeltaSerialize_read maxDel maxChg internalAck items ser
          (key :: base :: (deletedIDs.length : Int) :: (changedIDs.length : Int) ::
            (deletedIDs ++ changedIDs))).items
        (fastArrayDeltaSerialize_read maxDel maxChg internalAck items ser
          (key :: base :: (deletedIDs.length : Int) :: (changedIDs.length : Int) ::
            (deletedIDs ++ changedIDs))).ser.itemMap) := by
  rw [fastArrayDeltaSerialize_read_unfold maxDel maxChg internalAck items ser key base
    deletedIDs changedIDs hdlim hclim]
  set ser₀ := conditionalRebuildItemMap items ser with hser₀
  set expl := deletedIDs.filterMap (mapFind ser₀.itemMap) with hexpl
  set hdr : FFastArraySerializerHeader :=
    ⟨key, base, (changedIDs.length : Int), expl⟩ with hhdr
  set C := readChangedLoop key changedIDs items ser₀ [] [] with hC
  set final := (if internalAck then hdr.deletedIndices
    else implicitScanLoop hdr C.items 0 hdr.deletedIndices) with hfinal
  obtain ⟨hpcdel, hpcitems, hpcmap⟩ := postReceiveCleanup_shape internalAck hdr
    C.changedIndices C.addedIndices C.items C.ser
  rw [← hfinal] at hpcitems hpcmap
  have hINV1 := readChangedLoop_inv key changedIDs items ser₀ [] [] hinv
  rw [← hC] at hINV1
  obtain ⟨newIds, hids1, hnew_sub, hnew_nodup, hnew_none⟩ :=
    readChangedLoop_ids key changedIDs items ser₀ [] []
  rw [← hC] at hids1
  have hlen1 : C.items.length = items.length + newIds.length := by
    have := congrArg List.length hids1
    simpa using this
  have hnew_disj : ∀ c ∈ newIds, c ∉ items.map FItem.replicationID := by
    intro c hc hmem
    obtain ⟨it, hit, hid⟩ := List.mem_map.mp hmem
    have hs : (mapFind ser₀.itemMap c).isSome :=
      hid ▸ hinv.2 it hit (hid.symm ▸ hchid c (hnew_sub c hc))
    rw [hnew_none c hc] at hs
    exact absurd hs (by simp)
  have hids_l1 : (C.items.map FItem.replicationID).Nodup := by
    rw [hids1]
    rw [List.nodup_append]
    exact ⟨hids, hnew_nodup, fun a ha hb => hnew_disj a hb ha⟩
  -- id at an original position is the original id
  have hidat : ∀ (j : Nat), j < items.length →
      (C.items.map FItem.replicationID).get? j =
        (items.map FItem.replicationID).get? j := by
    intro j hj
    rw [hids1, List.get?_append (by simpa using hj)]
  have hexpl_val : ∀ p ∈ expl, 0 ≤ p ∧ p < (C.items.length : Int) ∧
      p.toNat < items.length := by
    intro p hp
    obtain ⟨d, hd, hfd⟩ := List.mem_filterMap.mp hp
    obtain ⟨h0, it, hit, _⟩ := hinv.1 d p hfd
    have hplen : p.toNat < items.length := by
      rcases List.get?_eq_some.mp hit with ⟨hl, _⟩
      exact hl
    refine ⟨h0, by omega, hplen⟩
  have hfinal_val : ∀ p ∈ final, 0 ≤ p ∧ p < (C.items.length : Int) := by
    by_cases hack : internalAck
    · rw [hfinal, if_pos hack]
      intro p hp
      exact ⟨(hexpl_val p hp).1, (hexpl_val p hp).2.1⟩
    · rw [hfinal, if_neg hack]
      obtain ⟨extra, h1, h2, _⟩ := implicitScanLoop_spec hdr C.items 0 hdr.deletedIndices
      rw [h1]
      intro p hp
      rcases List.mem_append.mp hp with hp | hp
      · exact ⟨(hexpl_val p hp).1, (hexpl_val p hp).2.1⟩
      · have := h2 p hp
        omega
  have hexpl_nodup : expl.Nodup := by
    apply filterMap_nodup_of_inj _ deletedIDs hdelN
    intro a b ja jb _ _ hfa hfb he
    obtain ⟨_, ita, hita, hida⟩ := hinv.1 a ja hfa
    obtain ⟨_, itb, hitb, hidb⟩ := hinv.1 b jb hfb
    rw [he] at hita
    rw [hita] at hitb
    rw [← hida, ← hidb, Option.some.inj hitb]
  have hfinal_nodup : final.Nodup := by
    by_cases hack : internalAck
    · rw [hfinal, if_pos hack]
      exact hexpl_nodup
    · rw [hfinal, if_neg hack]
      obtain ⟨extra, h1, _, h3⟩ := implicitScanLoop_spec hdr C.items 0 hdr.deletedIndices
      rw [h1]
      exact h3 hexpl_nodup
  have hexpl_sub : ∀ p ∈ expl, p ∈ final := by
    by_cases hack : internalAck
    · rw [hfinal, if_pos hack]
      exact fun p hp => hp
    · rw [hfinal, if_neg hack]
      obtain ⟨extra, h1, _, _⟩ := implicitScanLoop_spec hdr C.items 0 hdr.deletedIndices
      rw [h1]
      exact fun p hp => List.mem_append_left _ hp
  obtain ⟨hev, hlenR, hA, hB⟩ := removeLoopEvents_spec (sortedDescending final) C.items
    (sortedDescending_pairwise hfinal_nodup)
    (fun d hd => hfinal_val d (mem_sortedDescending.mp hd))
  refine ⟨?_, ?_, ?_, ?_⟩
  · -- deleted ids are gone
    intro d hd hmem
    simp only at hmem
    rw [hpcitems] at hmem
    obtain ⟨x, hx, hxid⟩ := List.mem_map.mp hmem
    obtain ⟨j, hj1, hj2, hj3⟩ := hA x hx
    cases hfd : mapFind ser₀.itemMap d with
    | some p =>
      have hpexpl : p ∈ expl := List.mem_filterMap.mpr ⟨d, hd, hfd⟩
      obtain ⟨h0, it, hit, hitid⟩ := hinv.1 d p hfd
      have hplen : p.toNat < items.length := by
        rcases List.get?_eq_some.mp hit with ⟨hl, _⟩
        exact hl
      have hmapj : (C.items.map FItem.replicationID).get? j = some d := by
        rw [List.get?_map, hj3]
        simp [hxid]
      have hmapp : (C.items.map FItem.replicationID).get? p.toNat = some d := by
        rw [hidat p.toNat hplen, List.get?_map, hit]
        simp [hitid]
      have hjp : j = p.toNat := by
        apply List.get?_inj _ hids_l1 (hmapj.trans hmapp.symm)
        simpa using hj1
      apply hj2
      rw [mem_sortedDescending]
      have : (j : Int) = p := by omega
      rw [this]
      exact hexpl_sub p hpexpl
    | none =>
      have hdnotitems : d ∉ items.map FItem.replicationID := by
        intro hmem2
        obtain ⟨it, hit, hid⟩ := List.mem_map.mp hmem2
        by_cases hdn : d = INDEX_NONE
        · exact hnoneg it hit (hid.trans hdn)
        · have hs := hinv.2 it hit (hid.symm ▸ hdn)
          rw [hid, hfd] at hs
          exact absurd hs (by simp)
      have hdnotnew : d ∉ newIds := fun hc => hdisj d (hnew_sub d hc) hd
      have : d ∈ C.items.map FItem.replicationID := by
        refine List.mem_map.mpr ⟨x, ?_, hxid⟩
        exact List.get?_mem hj3
      rw [hids1] at this
      rcases List.mem_append.mp this with hthis | hthis
      · exact hdnotitems hthis
      · exact hdnotnew hthis
  · -- changed ids survive
    intro c hc
    simp only
    rw [hpcitems]
    obtain ⟨j, it, hj, hjid, hjmrk⟩ :=
      readChangedLoop_touched key changedIDs items ser₀ [] [] hinv c hc
    rw [← hC] at hj
    have hjlen : j < C.items.length := by
      rcases List.get?_eq_some.mp hj with ⟨hl, _⟩
      exact hl
    have hjnotexpl : (j : Int) ∉ expl := by
      intro hjf
      obtain ⟨d, hd, hfd⟩ := List.mem_filterMap.mp hjf
      obtain ⟨h0, itd, hitd, hitdid⟩ := hinv.1 d (j : Int) hfd
      have hplen : ((j : Int)).toNat < items.length := by
        rcases List.get?_eq_some.mp hitd with ⟨hl, _⟩
        exact hl
      have hmapd : (C.items.map FItem.replicationID).get? j = some d := by
        have : ((j : Int)).toNat = j := by omega
        rw [this] at hitd hplen
        rw [hidat j hplen, List.get?_map, hitd]
        simp [hitdid]
      have hmapc : (C.items.map FItem.replicationID).get? j = some c := by
        rw [List.get?_map, hj]
        simp [hjid]
      have : d = c := by
        have := hmapd.symm.trans hmapc
        exact Option.some.inj this
      exact hdisj c hc (this ▸ hd)
    have hjnot : (j : Int) ∉ final := by
      by_cases hack : internalAck
      · rw [hfinal, if_pos hack]
        exact hjnotexpl
      · rw [hfinal, if_neg hack]
        intro hjf
        rcases implicitScanLoop_sound hdr C.items 0 hdr.deletedIndices (j : Int) hjf with
          hx | ⟨it', hit', hc1, _⟩
        · exact hjnotexpl hx
        · have : ((j : Int) - 0).toNat = j := by omega
          rw [this, hj] at hit'
          rw [← Option.some.inj hit'] at hc1
          rw [hjmrk] at hc1
          exact absurd hc1 (lt_irrefl key)
    refine List.mem_map.mpr ⟨it, ?_, hjid⟩
    apply hB j hjlen _ it hj
    rw [mem_sortedDescending]
    exact hjnot
  · -- no survivor in the implicit-delete key range
    intro hack j it hj hcond
    simp only at hj
    rw [hpcitems] at hj
    obtain ⟨j', hj'1, hj'2, hj'3⟩ := hA it (List.get?_mem hj)
    have hcomp := implicitScanLoop_complete hdr C.items 0 hdr.deletedIndices j' it hj'3
      (by simpa [hhdr] using hcond.1) (by simpa [hhdr] using hcond.2)
    apply hj'2
    rw [mem_sortedDescending, hfinal, if_neg (by simp [hack])]
    simpa using hcomp
  · -- the item map stays consistent when its size matches
    intro hlen
    simp only at hlen ⊢
    rw [hpcitems, hpcmap] at hlen ⊢
    by_cases hf0 : final.length > 0
    · rw [if_pos hf0] at hlen ⊢
      have hempty : (removeLoopEvents C.items (sortedDescending final)).1 = [] := by
        apply List.eq_nil_of_length_eq_zero
        simp at hlen
        omega
      rw [hempty]
      constructor
      · intro id j hj
        simp [mapFind] at hj
      · intro it hit
        simp at hit
    · rw [if_neg hf0] at hlen ⊢
      have hfnil : final = [] := List.eq_nil_of_length_eq_zero (by omega)
      rw [hfnil]
      have hnoop : (removeLoopEvents C.items (sortedDescending [])).1 = C.items := by
        simp [sortedDescending, List.insertionSort, removeLoopEvents]
      rw [hnoop]
      exact hINV1

end IdempotenceLemmas2

/-- C3 counterexample: applying the same delta (one changed element, id 1) a
second time to a collection that already applied it bumps the record's local
replication key again — from 4 after the first application to 5 after the
second — because the read path increments `ReplicationKey` on every receive
of a changed element (for client replay re-serialization).  Per-record keys
are therefore *not* left unchanged by a duplicate receive. -/
theorem reapply_delta_bumps_replicationKey :
    (fastArrayDeltaSerialize_read 2048 2048 false [⟨1, 3, 5⟩]
        ⟨[(1, 0)], 1, 5, INDEX_NONE, INDEX_NONE, []⟩ [9, 5, 0, 1, 1]).items =
      [⟨1, 4, 9⟩] ∧
    (fastArrayDeltaSerialize_read 2048 2048 false
        (fastArrayDeltaSerialize_read 2048 2048 false [⟨1, 3, 5⟩]
          ⟨[(1, 0)], 1, 5, INDEX_NONE, INDEX_NONE, []⟩ [9, 5, 0, 1, 1]).items
        (fastArrayDeltaSerialize_read 2048 2048 false [⟨1, 3, 5⟩]
          ⟨[(1, 0)], 1, 5, INDEX_NONE, INDEX_NONE, []⟩ [9, 5, 0, 1, 1]).ser
        [9, 5, 0, 1, 1]).items = [⟨1, 5, 9⟩] := by decide

/-- C3 (amended): applying the same well-formed delta a second time to a
collection that already applied it leaves the collection's observable
replication-id column — and hence its id set — unchanged (no record is
added, removed or implicitly deleted by the duplicate receive); the
receiver-local per-record replication keys, however, are incremented again
on each receive. -/
theorem reapply_delta_preserves_ids (maxDel maxChg : Int) (internalAck : Bool)
    (items : List FItem) (ser : FFastArraySerializer) (key base : Int)
    (deletedIDs changedIDs : List Int)
    (hmap : ser.itemMap = buildItemMapLoop items 0 [])
    (hids : (items.map FItem.replicationID).Nodup)
    (hnoneg : ∀ it ∈ items, it.replicationID ≠ INDEX_NONE)
    (hdelN : deletedIDs.Nodup)
    (hdisj : ∀ c ∈ changedIDs, c ∉ deletedIDs)
    (hchid : ∀ c ∈ changedIDs, c ≠ INDEX_NONE)
    (hdlim : (deletedIDs.length : Int) ≤ maxDel)
    (hclim : (changedIDs.length : Int) ≤ maxChg) :
    (fastArrayDeltaSerialize_read maxDel maxChg internalAck
      (fastArrayDeltaSerialize_read maxDel maxChg internalAck items ser
        (key :: base :: (deletedIDs.length : Int) :: (changedIDs.length : Int) ::
          (deletedIDs ++ changedIDs))).items
      (fastArrayDeltaSerialize_read maxDel maxChg internalAck items ser
        (key :: base :: (deletedIDs.length : Int) :: (changedIDs.length : Int) ::
          (deletedIDs ++ changedIDs))).ser
      (key :: base :: (deletedIDs.length : Int) :: (changedIDs.length : Int) ::
        (deletedIDs ++ changedIDs))).items.map FItem.replicationID =
    (fastArrayDeltaSerialize_read maxDel maxChg internalAck items ser
      (key :: base :: (deletedIDs.length : Int) :: (changedIDs.length : Int) ::
        (deletedIDs ++ changedIDs))).items.map FItem.replicationID := by
  have hinv₀ : ItemMapInv items (conditionalRebuildItemMap items ser).itemMap := by
    rw [conditionalRebuildItemMap_of_eq items ser hmap]
    exact itemMapInv_build items
  obtain ⟨A1, A2, A3, A4⟩ := fastArrayDeltaSerialize_read_round_facts maxDel maxChg
    internalAck items ser key base deletedIDs changedIDs hinv₀ hids hnoneg hdelN
    hdisj hchid hdlim hclim
  exact fastArrayDeltaSerialize_read_noop maxDel maxChg internalAck _ _ key base
    deletedIDs changedIDs A4 A1 A2 hchid A3 hdlim hclim

/-- C3 witness: the concrete duplicated delta of the counterexample scenario
run through the amended theorem — the replication-id column after the second
application equals the column after the first. -/
theorem reapply_delta_preserves_ids_witness :
    (fastArrayDeltaSerialize_read 2048 2048 false
      (fastArrayDeltaSerialize_read 2048 2048 false [⟨1, 3, 5⟩]
        ⟨[(1, 0)], 1, 5, INDEX_NONE, INDEX_NONE, []⟩
        ((9 : Int) :: (5 : Int) :: (([] : List Int).length : Int) ::
          (([1] : List Int).length : Int) :: (([] : List Int) ++ [1]))).items
      (fastArrayDeltaSerialize_read 2048 2048 false [⟨1, 3, 5⟩]
        ⟨[(1, 0)], 1, 5, INDEX_NONE, INDEX_NONE, []⟩
        ((9 : Int) :: (5 : Int) :: (([] : List Int).length : Int) ::
          (([1] : List Int).length : Int) :: (([] : List Int) ++ [1]))).ser
      ((9 : Int) :: (5 : Int) :: (([] : List Int).length : Int) ::
        (([1] : List Int).length : Int) :: (([] : List Int) ++ [1]))).items.map
      FItem.replicationID =
    (fastArrayDeltaSerialize_read 2048 2048 false [⟨1, 3, 5⟩]
      ⟨[(1, 0)], 1, 5, INDEX_NONE, INDEX_NONE, []⟩
      ((9 : Int) :: (5 : Int) :: (([] : List Int).length : Int) ::
        (([1] : List Int).length : Int) :: (([] : List Int) ++ [1]))).items.map
      FItem.replicationID :=
  reapply_delta_preserves_ids 2048 2048 false [⟨1, 3, 5⟩]
    ⟨[(1, 0)], 1, 5, INDEX_NONE, INDEX_NONE, []⟩ 9 5 [] [1]
    (by decide) (by decide) (by decide) (by decide) (by simp) (by decide)
    (by norm_num) (by norm_num)

end FastArray
